import Mathlib

/-!
# Route trie of `route/exproute/trie.go`

A shallow embedding of the expression-route trie: the pattern parser
(`parseTrie`, `parseExpression`, `parsePatternMatcher`), the structural merge
(`trie.merge`, `trieNode.merge`, `mergeWithLeaf`) and the match walk
(`trie.match`, `trieNode.match`).

Conventions of the embedding.

* A Go `string` is the list of its bytes (`List UInt8`); `str` turns a Lean
  string literal into its UTF-8 bytes.
* A Go `int` offset is an `Int` (the walk starts at `-1`).
* A nil-able pointer or interface value is an `Option`.
* A Go function that can return an `error` or stop with a run-time panic
  returns `Except error _`; the constructors of `error` say which is which.
* The `node` interface (the destination stored in a leaf) is declared outside
  this file of the package.  Its values are an arbitrary type `N`, and the one
  method the trie calls on them, `result.match(r)`, is the parameter
  `rm : N → Option L` (the location, possibly nil, that the destination yields
  for the request at hand).
* The methods `trie.match` and `trieNode.match` are `trie.match_` and
  `trieNode.match_`, since `match` is a keyword.
* Bytes are written as numbers: `<` is 60, `>` is 62, `/` is 47, `:` is 58.
* The segment matcher (`grabValue`, `stringMatcher.match`) is embedded too; the
  match walk of the source never calls it.
-/

namespace exproute

/-- UTF-8 bytes of a string literal, the contents of the Go string. -/
def str (s : String) : List UInt8 := s.data.flatMap String.utf8EncodeChar

/-- Errors returned by the package (`fmt.Errorf`) and the ways it can stop. -/
inductive error where
  /-- The error `"Empty pattern"` of `parseTrie`. -/
  | emptyPattern
  /-- The error `"Unsupported matcher: %s"` of `makePathMatcher`. -/
  | unsupportedMatcher (matcherType : List UInt8)
  /-- The error `"Expected only one parameter - variable name, got %s"`. -/
  | expectedOneParameter (args : List (List UInt8))
  /-- The error `"Can't merge nodes with different keys"` of `trieNode.merge`. -/
  | differentKeys (a b : UInt8)
  /-- The error `"Can't merge two leaf nodes"` of `trieNode.merge`. -/
  | twoLeafNodes
  /-- Run-time panic: index out of range. -/
  | panicIndexOutOfRange
  /-- Run-time panic: nil pointer dereference. -/
  | panicNilDereference
  /-- Run-time panic: slice bounds out of range. -/
  | panicSliceBounds
  /-- Not a value of the program: the recursion budget of the embedding of
  `parseExpression` ran out (shown unreachable by `parseTrie_fuel`). -/
  | fuelExhausted
  deriving DecidableEq, Repr

/-- The Go expression `s[i]` on a string: the byte at `i`, or the panic. -/
def index (s : List UInt8) (i : Int) : Except error UInt8 :=
  if 0 ≤ i then
    match s.get? i.toNat with
    | some c => .ok c
    | none => .error .panicIndexOutOfRange
  else .error .panicIndexOutOfRange

/-- The interface `patternMatcher`; its one implementation is `stringMatcher`. -/
inductive patternMatcher where
  | stringMatcher (name : List UInt8)
  deriving DecidableEq, Repr

/-- The method `getName`. -/
def patternMatcher.getName : patternMatcher → List UInt8
  | .stringMatcher name => name

/-- The method `stringMatcher.equals`: same dynamic type and same name. -/
def patternMatcher.equals (s other : patternMatcher) : Bool :=
  match other with
  | .stringMatcher _ => other.getName == s.getName

/-- The struct `trieNode`: `char`, `children`, `matcher`, `result`. -/
inductive trieNode (N : Type) where
  | mk (char : UInt8) (children : List (trieNode N))
      (matcher : Option patternMatcher) (result : Option N)

namespace trieNode
variable {N : Type}

/-- Field `char`. -/
def char : trieNode N → UInt8
  | .mk c _ _ _ => c

/-- Field `children`. -/
def children : trieNode N → List (trieNode N)
  | .mk _ cs _ _ => cs

/-- Field `matcher`. -/
def matcher : trieNode N → Option patternMatcher
  | .mk _ _ m _ => m

/-- Field `result`. -/
def result : trieNode N → Option N
  | .mk _ _ _ r => r

/-- The method `isLeaf`: `e.result != nil`. -/
def isLeaf (e : trieNode N) : Bool := e.result.isSome

/-- The method `isRoot`: `e.char == byte(0) && e.matcher == nil`. -/
def isRoot (e : trieNode N) : Bool := e.char == 0 && e.matcher.isNone

/-- The method `isPatternMatcher`: `e.matcher != nil`. -/
def isPatternMatcher (e : trieNode N) : Bool := e.matcher.isSome

/-- The method `equals`.  In Go `&&` binds tighter than `||`, so the body reads
`(e.char == o.char && e.matcher == nil && o.matcher == nil) ||
 (e.matcher != nil && o.matcher != nil && e.matcher.equals(o.matcher))`. -/
def equals (e o : trieNode N) : Bool :=
  ((e.char == o.char) && (e.matcher.isNone && o.matcher.isNone)) ||
    (match e.matcher, o.matcher with
     | some em, some om => em.equals om
     | _, _ => false)

end trieNode

/-- The function `mergeWithLeaf`: a new node with the key, children and matcher
of `base` and the result of `leaf`. -/
def mergeWithLeaf {N : Type} (base leaf : trieNode N) : Except error (trieNode N) :=
  .ok (.mk base.char base.children base.matcher leaf.result)

/-- The inner loop of `trieNode.merge` (`for _, c2 := range o.children`) for one
child `c` of `e`.  `mergeC` is the method value `c.merge`; the state is the
pair of the key set `merged` and the slice `children` built so far. -/
def mergeInner {N : Type} (c : trieNode N) (mergeC : trieNode N → Except error (trieNode N)) :
    List (trieNode N) → List UInt8 × List (trieNode N) →
      Except error (List UInt8 × List (trieNode N))
  | [], st => .ok st
  | c2 :: rest, (merged, children) =>
    if c.equals c2 then
      match mergeC c2 with
      | .error err => .error err
      | .ok m => mergeInner c mergeC rest (c.char :: merged, children ++ [m])
    else mergeInner c mergeC rest (merged, children)

mutual
/-- The method `trieNode.merge`. -/
def trieNode.merge {N : Type} : trieNode N → trieNode N → Except error (trieNode N)
  | .mk echar echildren ematcher eresult, o =>
    if echar ≠ o.char then .error (.differentKeys echar o.char)
    else if eresult.isSome && o.isLeaf then .error .twoLeafNodes
    else if eresult.isSome then mergeWithLeaf o (.mk echar echildren ematcher eresult)
    else if o.isLeaf then mergeWithLeaf (.mk echar echildren ematcher eresult) o
    else
      match mergeOuter echildren o.children ([], []) with
      | .error err => .error err
      | .ok (merged, children) =>
        let children := children ++ echildren.filter (fun c => !merged.contains c.char)
        let children := children ++ o.children.filter (fun c => !merged.contains c.char)
        .ok (.mk echar children ematcher none)
/-- The outer loop of `trieNode.merge` (`for _, c := range e.children`). -/
def mergeOuter {N : Type} : List (trieNode N) → List (trieNode N) →
    List UInt8 × List (trieNode N) → Except error (List UInt8 × List (trieNode N))
  | [], _, st => .ok st
  | c :: cs, ochildren, st =>
    match mergeInner c (trieNode.merge c) ochildren st with
    | .error err => .error err
    | .ok st1 => mergeOuter cs ochildren st1
end

mutual
/-- The method `trieNode.match`. -/
def trieNode.match_ {N L : Type} (rm : N → Option L) :
    trieNode N → Int → List UInt8 → Except error (Option L)
  | .mk char children _ result, offset, path =>
    let body : Except error (Option L) :=
      match result, decide (offset = (path.length : Int) - 1) with
      | some res, true => .ok (rm res)
      | _, _ => matchChildren rm children (offset + 1) path
    if offset = -1 then body
    else
      match index path offset with
      | .error err => .error err
      | .ok c => if c = char then body else .ok none
/-- The loop `for _, c := range e.children` of `trieNode.match`. -/
def matchChildren {N L : Type} (rm : N → Option L) :
    List (trieNode N) → Int → List UInt8 → Except error (Option L)
  | [], _, _ => .ok none
  | c :: cs, offset, path =>
    match trieNode.match_ rm c offset path with
    | .error err => .error err
    | .ok (some loc) => .ok (some loc)
    | .ok none => matchChildren rm cs offset path
end

/-! ## The pattern parser -/

/-- The library function `strings.Split(s, ":")` for the one-byte separator
`sep`: the pieces between the separators, `n + 1` pieces for `n` separators. -/
def strings_Split (sep : UInt8) : List UInt8 → List (List UInt8)
  | [] => [[]]
  | c :: cs =>
    if c = sep then [] :: strings_Split sep cs
    else
      match strings_Split sep cs with
      | [] => [[c]]
      | v :: vs => (c :: v) :: vs

/-- Index of the last occurrence of `c` in a list, if there is one. -/
def lastIndexOf (c : UInt8) : List UInt8 → Option Nat
  | [] => none
  | x :: xs =>
    match lastIndexOf c xs with
    | some j => some (j + 1)
    | none => if x = c then some 0 else none

/-- The call `reParam.FindStringSubmatchIndex(rest)` for
`reParam = regexp.MustCompile("^<([^/]+)>")`.  The expression is anchored, its
class `[^/]` accepts every byte but `/`, and `+` is greedy under leftmost-first
matching: the match is `<`, then the longest non-empty run of bytes other than
`/` that is followed by `>`, then that `>`.  So the closing `>` is the last `>`
of the `/`-free run after `<`, not counting the first byte of the run.  The
bytes `<`, `/` and `>` are ASCII, so reading the string rune by rune, as the
library does, changes nothing.  The result is `[0, end, 1, end - 1]`, or the
empty slice when nothing matches. -/
def reParam_FindStringSubmatchIndex (rest : List UInt8) : List Nat :=
  match rest with
  | [] => []
  | c :: tl =>
    if c ≠ 60 then []
    else
      match tl.takeWhile (fun b => b ≠ 47) with
      | [] => []
      | _ :: run =>
        match lastIndexOf 62 run with
        | none => []
        | some j => [0, j + 3, 1, j + 2]

/-- The function `newStringMatcher`. -/
def newStringMatcher (args : List (List UInt8)) : Except error patternMatcher :=
  match args with
  | [name] => .ok (.stringMatcher name)
  | _ => .error (.expectedOneParameter args)

/-- The function `makePathMatcher`. -/
def makePathMatcher (matcherType : List UInt8) (matcherArgs : List (List UInt8)) :
    Except error patternMatcher :=
  if matcherType = str "string" then newStringMatcher matcherArgs
  else .error (.unsupportedMatcher matcherType)

/-- The function `parsePatternMatcher`.  The Go triple `(matcher, offset, err)`
is the value under `.ok`; `.error` is the panic of `pattern[offset]`. -/
def parsePatternMatcher (offset : Int) (pattern : List UInt8) :
    Except error (Option patternMatcher × Int × Option error) :=
  match index pattern offset with
  | .error err => .error err
  | .ok c =>
    if c ≠ 60 then .ok (none, -1, none)
    else
      let rest := pattern.drop offset.toNat
      let m := reParam_FindStringSubmatchIndex rest
      if m.length = 0 then .ok (none, -1, none)
      else
        let values := strings_Split 58 ((rest.take (m.getD 3 0)).drop (m.getD 2 0))
        let matcherType := values.headD []
        let matcherArgs := values.tail
        let (matcherType, matcherArgs) :=
          if values.length = 1 then (str "string", values) else (matcherType, matcherArgs)
        match makePathMatcher matcherType matcherArgs with
        | .error err => .ok (none, offset, some err)
        | .ok matcher => .ok (some matcher, offset + (m.getD 1 0 : Nat), none)

/-- The method `trieNode.parseExpression`.  The Go method fills in the receiver
`p` in place; here it returns the filled-in node.  The first argument bounds
the depth of the recursion. -/
def trieNode.parseExpression {N : Type} :
    Nat → trieNode N → Int → List UInt8 → Option N → Except error (trieNode N)
  | 0, _, _, _, _ => .error .fuelExhausted
  | fuel + 1, p, offset, pattern, result =>
    if offset ≥ (pattern.length : Int) - 1 then
      .ok (.mk p.char p.children p.matcher result)
    else
      match parsePatternMatcher (offset + 1) pattern with
      | .error err => .error err
      | .ok (_, _, some err) => .error err
      | .ok (some matcher, newOffset, none) =>
        match trieNode.parseExpression fuel (.mk 0 [] (some matcher) none)
            (newOffset - 1) pattern result with
        | .error err => .error err
        | .ok node => .ok (.mk p.char [node] p.matcher p.result)
      | .ok (none, _, none) =>
        match index pattern (offset + 1) with
        | .error err => .error err
        | .ok c =>
          match trieNode.parseExpression fuel (.mk c [] none none) (offset + 1) pattern result with
          | .error err => .error err
          | .ok node => .ok (.mk p.char [node] p.matcher p.result)

/-- The struct `trie`: a pointer to the root node. -/
structure trie (N : Type) where
  root : Option (trieNode N)

/-- The function `parseTrie`.  Every step of `parseExpression` moves the offset
forward, so `len(pattern) + 1` levels of recursion are enough. -/
def parseTrie {N : Type} (pattern : List UInt8) (matchNode : Option N) : Except error (trie N) :=
  if pattern.length = 0 then .error .emptyPattern
  else
    match trieNode.parseExpression (pattern.length + 1) (.mk 0 [] none none) (-1) pattern
        matchNode with
    | .error err => .error err
    | .ok root => .ok ⟨some root⟩

/-- The method `trie.merge`, for an operand that is a `*trie` (the type
assertion `n.(*trie)` holds). -/
def trie.merge {N : Type} (p other : trie N) : Except error (trie N) :=
  match p.root, other.root with
  | some proot, some oroot =>
    match proot.merge oroot with
    | .error err => .error err
    | .ok root => .ok ⟨some root⟩
  | _, _ => .error .panicNilDereference

/-- The method `trie.match`; `path` is `r.GetHttpRequest().URL.Path`. -/
def trie.match_ {N L : Type} (rm : N → Option L) (p : trie N) (path : List UInt8) :
    Except error (Option L) :=
  match p.root with
  | none => .ok none
  | some root =>
    let path := if path.length = 0 then str "/" else path
    root.match_ rm (-1) path

/-! ## Notions used to state and prove the properties -/

deriving instance DecidableEq for Except

/-- A literal pattern: `parsePatternMatcher` recognises no placeholder at any
offset of the pattern (it returns `nil, -1, nil` everywhere), so the scan of
`parseExpression` takes every byte as a literal key. -/
def noPlaceholder (pattern : List UInt8) : Prop :=
  ∀ i : Nat, i < pattern.length → parsePatternMatcher i pattern = .ok (none, -1, none)

instance (pattern : List UInt8) : Decidable (noPlaceholder pattern) := by
  unfold noPlaceholder; infer_instance

/-- The chain of literal nodes below a node with key `char` and matcher `m`. -/
def litChain {N : Type} (char : UInt8) (m : Option patternMatcher) :
    List UInt8 → Option N → trieNode N
  | [], r => .mk char [] m r
  | c :: cs, r => .mk char [litChain c none cs r] m none

/-- The chain for `P ++ r :: R` with a second result at the end of `P`. -/
def forked {N : Type} (D1 : N) (r : UInt8) (R : List UInt8) (D2 : N) (char : UInt8)
    (m : Option patternMatcher) : List UInt8 → trieNode N
  | [] => .mk char [litChain r none R (some D2)] m (some D1)
  | p :: ps => .mk char [forked D1 r R D2 p none ps] m none

/-- The relation `HasRoute e w d`: a node with result `d` is `e` or lies below
`e`, and `w` spells the keys from `e` down to that node. -/
inductive HasRoute {N : Type} : trieNode N → List UInt8 → N → Prop
  | leaf (c : UInt8) (ch : List (trieNode N)) (m : Option patternMatcher) (d : N) :
      HasRoute (.mk c ch m (some d)) [c] d
  | child (c : UInt8) (ch : List (trieNode N)) (m : Option patternMatcher) (r : Option N)
      (x : trieNode N) (w : List UInt8) (d : N) :
      x ∈ ch → HasRoute x w d → HasRoute (.mk c ch m r) (c :: w) d

/-- The routes of a trie: the words spelled from the children of the root down
to a node with a result, with that result. -/
def trie.HasRoute {N : Type} (t : trie N) (w : List UInt8) (d : N) : Prop :=
  ∃ root x, t.root = some root ∧ x ∈ root.children ∧ exproute.HasRoute x w d

/-- The relation `builtFrom t l`: the trie `t` is obtained by successful merges
from the tries that `parseTrie` returns for the literal patterns of `l`, each
with its non-nil destination. -/
inductive builtFrom {N : Type} : trie N → List (List UInt8 × N) → Prop
  | parse (P : List UInt8) (D : N) (t : trie N) :
      noPlaceholder P → parseTrie P (some D) = .ok t → builtFrom t [(P, D)]
  | merge (a b t : trie N) (la lb : List (List UInt8 × N)) :
      builtFrom a la → builtFrom b lb → a.merge b = .ok t → builtFrom t (la ++ lb)

/-! ## The segment matcher -/

/-- The library function `strings.Index(s, sep)` for the one-byte separator
`sep`: the index of its first occurrence in `s`, or `-1`. -/
def strings_Index (sep : UInt8) : List UInt8 → Int
  | [] => -1
  | c :: cs =>
    if c = sep then 0
    else
      let i := strings_Index sep cs
      if i = -1 then -1 else i + 1

/-- The Go slice expression `s[lo:hi]` on a string, or its panic when
`0 <= lo <= hi <= len(s)` fails. -/
def slice (s : List UInt8) (lo hi : Int) : Except error (List UInt8) :=
  if 0 ≤ lo ∧ lo ≤ hi ∧ hi ≤ (s.length : Int) then .ok ((s.take hi.toNat).drop lo.toNat)
  else .error .panicSliceBounds

/-- The function `grabValue`. -/
def grabValue (offset : Int) (path : List UInt8) : Except error (List UInt8 × Int) :=
  match slice path offset path.length with
  | .error err => .error err
  | .ok rest =>
    let index := strings_Index 47 rest
    if index = -1 then .ok (path, offset + (path.length : Int))
    else
      match slice path offset index with
      | .error err => .error err
      | .ok value => .ok (value, offset + index)

/-- The struct `matchResult`. -/
structure matchResult where
  matcher : patternMatcher
  value : List UInt8
  deriving DecidableEq

/-- The method `stringMatcher.match`. -/
def patternMatcher.match_ (s : patternMatcher) (offset : Int) (path : List UInt8) :
    Except error (matchResult × Int) :=
  match s with
  | .stringMatcher _ =>
    match grabValue offset path with
    | .error err => .error err
    | .ok (value, offset) => .ok (⟨s, value⟩, offset)

/-! ## More notions used to state and prove the properties -/

/-- The node reached from `e` by `k` times taking the only child; `none` when a
node on the way does not have exactly one child. -/
def descend {N : Type} : trieNode N → Nat → Option (trieNode N)
  | e, 0 => some e
  | e, k + 1 =>
    match e.children with
    | [c] => descend c k
    | _ => none

/-- The pairs `(c, c2)` of a child `c` of `e` and a child `c2` of `o` with
`c.equals(c2)`, in the order in which the two loops of `trieNode.merge` meet
them: by the children of `e`, and for one child of `e` by the children of `o`. -/
def equalPairs {N : Type} (echildren ochildren : List (trieNode N)) :
    List (trieNode N × trieNode N) :=
  echildren.flatMap (fun c => (ochildren.filter (fun c2 => c.equals c2)).map (fun c2 => (c, c2)))

/-- What `trieNode.equals` compares: the key byte of a node without a matcher,
the name of the matcher of a matcher node. -/
def trieNode.key {N : Type} (e : trieNode N) : UInt8 ⊕ List UInt8 :=
  match e.matcher with
  | none => .inl e.char
  | some m => .inr m.getName

/-- The relation `Within e x`: the node `x` is `e` or lies below `e`. -/
inductive Within {N : Type} : trieNode N → trieNode N → Prop
  | self (e : trieNode N) : Within e e
  | step (e c x : trieNode N) : c ∈ e.children → Within c x → Within e x

/-- No node of the tree below `e` has two children, at different positions of
its list of children, that are equal under `trieNode.equals`. -/
def noEqualSiblings {N : Type} (e : trieNode N) : Prop :=
  ∀ x, Within e x → x.children.Pairwise (fun a b => a.equals b = false)

/-- The tries obtained from results of `parseTrie` by zero or more successful
merges. -/
inductive obtained {N : Type} : trie N → Prop
  | parse (P : List UInt8) (D : Option N) (t : trie N) : parseTrie P D = .ok t → obtained t
  | merge (a b t : trie N) : obtained a → obtained b → a.merge b = .ok t → obtained t

/-- The placeholder that the scan recognises at offset `k` of a pattern, if
there is one: `reParam` matches the rest of the pattern from `k`, the text
between `<` and `>` is split at every `:`, and a single piece is the name of a
placeholder of type `string`.  The value is the type name, the arguments, and
the offset just past the closing `>`. -/
def placeholderAt (pattern : List UInt8) (k : Nat) :
    Option (List UInt8 × List (List UInt8) × Nat) :=
  let rest := pattern.drop k
  let m := reParam_FindStringSubmatchIndex rest
  if m.length = 0 then none
  else
    let values := strings_Split 58 ((rest.take (m.getD 3 0)).drop (m.getD 2 0))
    if values.length = 1 then some (str "string", values, k + m.getD 1 0)
    else some (values.headD [], values.tail, k + m.getD 1 0)

/-- The offsets that the left-to-right scan of a pattern reaches: it starts at
0, steps over one byte where no placeholder is recognised, and continues just
past the closing `>` of a recognised placeholder of type `string` with exactly
one argument. -/
inductive scanReaches (pattern : List UInt8) : Nat → Prop
  | start : scanReaches pattern 0
  | literal (k : Nat) : scanReaches pattern k → k < pattern.length →
      placeholderAt pattern k = none → scanReaches pattern (k + 1)
  | placeholder (k : Nat) (ty : List UInt8) (args : List (List UInt8)) (e : Nat) :
      scanReaches pattern k → k < pattern.length →
      placeholderAt pattern k = some (ty, args, e) → ty = str "string" → args.length = 1 →
      scanReaches pattern e

/-- The chain of nodes with the given keys (a key byte and an optional matcher
each) below a node with key `char` and matcher `m`; the last node of the chain
carries the result `r`. -/
def keyChain {N : Type} (r : Option N) :
    UInt8 → Option patternMatcher → List (UInt8 × Option patternMatcher) → trieNode N
  | char, m, [] => .mk char [] m r
  | char, m, (c, m2) :: rest => .mk char [keyChain r c m2 rest] m none

/-- Whether a value of `error` is an error that a function of the package
returns (a value made by `fmt.Errorf`), as opposed to a run-time panic or the
used-up recursion budget of the embedding. -/
def error.returned : error → Bool
  | .emptyPattern => true
  | .unsupportedMatcher _ => true
  | .expectedOneParameter _ => true
  | .differentKeys _ _ => true
  | .twoLeafNodes => true
  | .panicIndexOutOfRange => false
  | .panicNilDereference => false
  | .panicSliceBounds => false
  | .fuelExhausted => false

/-! ## Lemmas -/

/-- Induction on a node with the hypothesis for each of its children. -/
theorem trieNode.induct {N : Type} {motive : trieNode N → Prop}
    (h : ∀ c ch m r, (∀ x ∈ ch, motive x) → motive (.mk c ch m r)) : ∀ t, motive t := by
  intro t
  generalize hn : sizeOf t = n
  induction n using Nat.strong_induction_on generalizing t with
  | _ n ih =>
    cases t with
    | mk c ch m r =>
      apply h
      intro x hx
      apply ih (sizeOf x) _ x rfl
      subst hn
      have := List.sizeOf_lt_of_mem hx
      simp
      omega

/-- One step of `trieNode.match`. -/
theorem match_mk {N L : Type} (rm : N → Option L) (char : UInt8) (children : List (trieNode N))
    (m : Option patternMatcher) (result : Option N) (offset : Int) (path : List UInt8) :
    trieNode.match_ rm (.mk char children m result) offset path =
      (let body : Except error (Option L) :=
        match result, decide (offset = (path.length : Int) - 1) with
        | some res, true => .ok (rm res)
        | _, _ => matchChildren rm children (offset + 1) path
      if offset = -1 then body
      else
        match index path offset with
        | .error err => .error err
        | .ok c => if c = char then body else .ok none) := by
  rfl

theorem index_append_cons (pre : List UInt8) (c : UInt8) (w : List UInt8) :
    index (pre ++ c :: w) (pre.length : Int) = .ok c := by
  have h : (pre ++ c :: w)[pre.length]? = some c := by
    rw [List.getElem?_append_right (le_refl _)]; simp
  simp [index, h]

theorem index_length (path : List UInt8) : index path (path.length : Int) = .error .panicIndexOutOfRange := by
  simp [index]

theorem parsePatternMatcher_of_ne (pattern : List UInt8) (i : Nat) (c : UInt8)
    (hi : pattern[i]? = some c) (hc : c ≠ 60) :
    parsePatternMatcher i pattern = .ok (none, -1, none) := by
  have h : index pattern (i : Int) = .ok c := by simp [index, hi]
  simp only [parsePatternMatcher, h]
  simp [hc]

/-- A pattern without the byte `<` is a literal pattern. -/
theorem noPlaceholder_of_not_mem (pattern : List UInt8) (h : (60 : UInt8) ∉ pattern) :
    noPlaceholder pattern := by
  intro i hi
  apply parsePatternMatcher_of_ne pattern i pattern[i]
  · simp [hi]
  · intro hc
    apply h
    rw [← hc]
    exact List.getElem_mem hi

theorem parseExpression_literal {N : Type} (pattern : List UInt8) (result : Option N)
    (hp : noPlaceholder pattern) :
    ∀ (fuel k : Nat) (ch : UInt8) (m : Option patternMatcher),
      k ≤ pattern.length → pattern.length - k < fuel →
      trieNode.parseExpression fuel (.mk ch [] m none) ((k : Int) - 1) pattern result
        = .ok (litChain ch m (pattern.drop k) result) := by
  intro fuel
  induction fuel with
  | zero => intro k ch m _ h; omega
  | succ fuel ih =>
    intro k ch m hk hf
    rw [trieNode.parseExpression]
    by_cases hlen : k = pattern.length
    · subst hlen
      simp [litChain, trieNode.char, trieNode.children, trieNode.matcher]
    · have hlt : k < pattern.length := by omega
      have h1 : ¬ ((k : Int) - 1 ≥ (pattern.length : Int) - 1) := by omega
      have h2 : index pattern (k : Int) = .ok pattern[k] := by
        simp [index, hlt]
      have h3 := ih (k + 1) pattern[k] none (by omega) (by omega)
      simp only [Nat.cast_add, Nat.cast_one, add_sub_cancel_right] at h3
      simp only [h1, if_false, sub_add_cancel, hp k hlt, h2, h3]
      rw [List.drop_eq_getElem_cons hlt]
      simp [litChain, trieNode.char, trieNode.matcher, trieNode.result]

/-- A non-empty literal pattern parses to the chain of its bytes below the root. -/
theorem parseTrie_literal {N : Type} (pattern : List UInt8) (result : Option N)
    (hne : pattern ≠ []) (hp : noPlaceholder pattern) :
    parseTrie pattern result = .ok ⟨some (litChain 0 none pattern result)⟩ := by
  have h := parseExpression_literal pattern result hp (pattern.length + 1) 0 0 none
    (by omega) (by omega)
  have hl : pattern.length ≠ 0 := by simpa using hne
  simp only [Nat.cast_zero, zero_sub, List.drop_zero] at h
  simp [parseTrie, hl, h]

@[simp] theorem char_mk {N : Type} (c : UInt8) (cs : List (trieNode N))
    (m : Option patternMatcher) (r : Option N) : (trieNode.mk c cs m r).char = c := rfl

@[simp] theorem children_mk {N : Type} (c : UInt8) (cs : List (trieNode N))
    (m : Option patternMatcher) (r : Option N) : (trieNode.mk c cs m r).children = cs := rfl

@[simp] theorem matcher_mk {N : Type} (c : UInt8) (cs : List (trieNode N))
    (m : Option patternMatcher) (r : Option N) : (trieNode.mk c cs m r).matcher = m := rfl

@[simp] theorem result_mk {N : Type} (c : UInt8) (cs : List (trieNode N))
    (m : Option patternMatcher) (r : Option N) : (trieNode.mk c cs m r).result = r := rfl

theorem matchChildren_single {N L : Type} (rm : N → Option L) (c : trieNode N) (offset : Int)
    (path : List UInt8) (r : Option L) (h : trieNode.match_ rm c offset path = .ok r) :
    matchChildren rm [c] offset path = .ok r := by
  rw [matchChildren, h]
  cases r <;> simp [matchChildren]

theorem match_litChain {N L : Type} (rm : N → Option L) (D : N) :
    ∀ (w pre : List UInt8) (ch : UInt8) (m : Option patternMatcher),
      trieNode.match_ rm (litChain ch m w (some D)) (pre.length : Int) (pre ++ ch :: w)
        = .ok (rm D) := by
  intro w
  induction w with
  | nil =>
    intro pre ch m
    have h1 : ¬ ((pre.length : Int) = -1) := by omega
    simp [litChain, match_mk, index_append_cons, h1]
  | cons c cs ih =>
    intro pre ch m
    have h1 : ¬ ((pre.length : Int) = -1) := by omega
    have h2 := ih (pre ++ [ch]) c none
    simp only [List.length_append, List.length_singleton, Nat.cast_add, Nat.cast_one,
      List.append_assoc, List.singleton_append] at h2
    simp only [litChain, match_mk, index_append_cons, h1, if_false, if_true]
    exact matchChildren_single rm _ _ _ _ h2

theorem match_litChain_root {N L : Type} (rm : N → Option L) (D : N) (P : List UInt8)
    (hne : P ≠ []) (m : Option patternMatcher) (ch : UInt8) :
    trieNode.match_ rm (litChain ch m P (some D)) (-1) P = .ok (rm D) := by
  cases P with
  | nil => exact absurd rfl hne
  | cons c cs =>
    have h := match_litChain rm D cs [] c none
    simp only [List.length_nil, Nat.cast_zero, List.nil_append] at h
    simp only [litChain, match_mk, if_true]
    exact matchChildren_single rm _ _ _ _ h

theorem match_litChain_extension {N L : Type} (rm : N → Option L) (D : N) (R : List UInt8)
    (hR : R ≠ []) :
    ∀ (w pre : List UInt8) (ch : UInt8) (m : Option patternMatcher),
      trieNode.match_ rm (litChain ch m w (some D)) (pre.length : Int) (pre ++ ch :: (w ++ R))
        = .ok none := by
  intro w
  induction w with
  | nil =>
    intro pre ch m
    have h1 : ¬ ((pre.length : Int) = -1) := by omega
    have h3 : 0 < R.length := List.length_pos.mpr hR
    have h2 : ¬ ((pre.length : Int) = ((pre ++ ch :: R).length : Int) - 1) := by
      simp only [List.length_append, List.length_cons, Nat.cast_add, Nat.cast_one]
      omega
    simp only [litChain, match_mk, List.nil_append, index_append_cons, h1, h2, if_false,
      if_true, decide_False, matchChildren]
  | cons c cs ih =>
    intro pre ch m
    have h1 : ¬ ((pre.length : Int) = -1) := by omega
    have h2 := ih (pre ++ [ch]) c none
    simp only [List.length_append, List.length_singleton, Nat.cast_add, Nat.cast_one,
      List.append_assoc, List.singleton_append] at h2
    simp only [litChain, match_mk, index_append_cons, h1, if_false, if_true, List.cons_append]
    exact matchChildren_single rm _ _ _ _ h2

theorem litChain_char {N : Type} (ch : UInt8) (m : Option patternMatcher) (w : List UInt8)
    (r : Option N) : (litChain ch m w r).char = ch := by
  cases w <;> rfl

theorem litChain_matcher {N : Type} (ch : UInt8) (m : Option patternMatcher) (w : List UInt8)
    (r : Option N) : (litChain ch m w r).matcher = m := by
  cases w <;> rfl

theorem equals_of_literal {N : Type} (a b : trieNode N) (hc : a.char = b.char)
    (ha : a.matcher = none) (hb : b.matcher = none) : a.equals b = true := by
  simp [trieNode.equals, hc, ha, hb]

theorem merge_single_child {N : Type} (ch : UInt8) (m : Option patternMatcher)
    (a b x : trieNode N) (hc : a.char = b.char) (ha : a.matcher = none) (hb : b.matcher = none)
    (h : a.merge b = .ok x) :
    (trieNode.mk ch [a] m none).merge (.mk ch [b] m none) = .ok (.mk ch [x] m none) := by
  have he := equals_of_literal a b hc ha hb
  simp [trieNode.merge, trieNode.isLeaf, mergeOuter, mergeInner, he, h, hc]

/-- Merging the chain of `P` with the chain of `P ++ r :: R`. -/
theorem merge_prefix_left {N : Type} (D1 : N) (r : UInt8) (R : List UInt8) (D2 : N) :
    ∀ (P : List UInt8) (ch : UInt8) (m : Option patternMatcher),
      (litChain ch m P (some D1)).merge (litChain ch m (P ++ r :: R) (some D2))
        = .ok (forked D1 r R D2 ch m P) := by
  intro P
  induction P with
  | nil =>
    intro ch m
    simp [litChain, forked, trieNode.merge, trieNode.isLeaf, mergeWithLeaf]
  | cons p ps ih =>
    intro ch m
    simp only [litChain, forked, List.cons_append]
    apply merge_single_child
    · simp [litChain_char]
    · simp [litChain_matcher]
    · simp [litChain_matcher]
    · exact ih p none

theorem merge_prefix_right {N : Type} (D1 : N) (r : UInt8) (R : List UInt8) (D2 : N) :
    ∀ (P : List UInt8) (ch : UInt8) (m : Option patternMatcher),
      (litChain ch m (P ++ r :: R) (some D2)).merge (litChain ch m P (some D1))
        = .ok (forked D1 r R D2 ch m P) := by
  intro P
  induction P with
  | nil =>
    intro ch m
    simp [litChain, forked, trieNode.merge, trieNode.isLeaf, mergeWithLeaf]
  | cons p ps ih =>
    intro ch m
    simp only [litChain, forked, List.cons_append]
    apply merge_single_child
    · simp [litChain_char]
    · simp [litChain_matcher]
    · simp [litChain_matcher]
    · exact ih p none

theorem match_forked_short {N L : Type} (rm : N → Option L) (D1 : N) (r : UInt8)
    (R : List UInt8) (D2 : N) :
    ∀ (P pre : List UInt8) (ch : UInt8) (m : Option patternMatcher),
      trieNode.match_ rm (forked D1 r R D2 ch m P) (pre.length : Int) (pre ++ ch :: P)
        = .ok (rm D1) := by
  intro P
  induction P with
  | nil =>
    intro pre ch m
    have h1 : ¬ ((pre.length : Int) = -1) := by omega
    simp [forked, match_mk, index_append_cons, h1]
  | cons c cs ih =>
    intro pre ch m
    have h1 : ¬ ((pre.length : Int) = -1) := by omega
    have h2 := ih (pre ++ [ch]) c none
    simp only [List.length_append, List.length_singleton, Nat.cast_add, Nat.cast_one,
      List.append_assoc, List.singleton_append] at h2
    simp only [forked, match_mk, index_append_cons, h1, if_false, if_true]
    exact matchChildren_single rm _ _ _ _ h2

theorem match_forked_long {N L : Type} (rm : N → Option L) (D1 : N) (r : UInt8)
    (R : List UInt8) (D2 : N) :
    ∀ (P pre : List UInt8) (ch : UInt8) (m : Option patternMatcher),
      trieNode.match_ rm (forked D1 r R D2 ch m P) (pre.length : Int)
        (pre ++ ch :: (P ++ r :: R)) = .ok (rm D2) := by
  intro P
  induction P with
  | nil =>
    intro pre ch m
    have h1 : ¬ ((pre.length : Int) = -1) := by omega
    have h2 : ¬ ((pre.length : Int) = ((pre ++ ch :: r :: R).length : Int) - 1) := by
      simp only [List.length_append, List.length_cons, Nat.cast_add, Nat.cast_one]
      omega
    have h3 := match_litChain rm D2 R (pre ++ [ch]) r none
    simp only [List.length_append, List.length_singleton, Nat.cast_add, Nat.cast_one,
      List.append_assoc, List.singleton_append] at h3
    simp only [forked, match_mk, List.nil_append, index_append_cons, h1, h2, if_false,
      if_true, decide_False]
    exact matchChildren_single rm _ _ _ _ h3
  | cons c cs ih =>
    intro pre ch m
    have h1 : ¬ ((pre.length : Int) = -1) := by omega
    have h2 := ih (pre ++ [ch]) c none
    simp only [List.length_append, List.length_singleton, Nat.cast_add, Nat.cast_one,
      List.append_assoc, List.singleton_append] at h2
    simp only [forked, match_mk, index_append_cons, h1, if_false, if_true, List.cons_append]
    exact matchChildren_single rm _ _ _ _ h2

theorem HasRoute.ne_nil {N : Type} {e : trieNode N} {w : List UInt8} {d : N}
    (h : HasRoute e w d) : w ≠ [] := by
  cases h <;> simp

theorem HasRoute.of_child {N : Type} {e : trieNode N} {c : UInt8} {w : List UInt8} {d : N}
    (h : HasRoute e (c :: w) d) (hw : w ≠ []) : ∃ x ∈ e.children, HasRoute x w d := by
  cases h with
  | leaf => exact absurd rfl hw
  | child c ch m r x w d hx hr => exact ⟨x, hx, hr⟩

theorem HasRoute.head_eq {N : Type} {e : trieNode N} {c : UInt8} {w : List UInt8} {d : N}
    (h : HasRoute e (c :: w) d) : c = e.char := by
  cases h <;> rfl

theorem matchChildren_some {N L : Type} (rm : N → Option L) (offset : Int) (path : List UInt8)
    (loc : L) :
    ∀ l : List (trieNode N), matchChildren rm l offset path = .ok (some loc) →
      ∃ x ∈ l, trieNode.match_ rm x offset path = .ok (some loc) := by
  intro l
  induction l with
  | nil => intro h; simp [matchChildren] at h
  | cons c cs ih =>
    intro h
    rw [matchChildren] at h
    rcases hc : trieNode.match_ rm c offset path with err | r
    · simp [hc] at h
    · cases r with
      | none =>
        simp only [hc] at h
        obtain ⟨x, hx, hm⟩ := ih h
        exact ⟨x, List.mem_cons_of_mem _ hx, hm⟩
      | some l2 =>
        simp only [hc, Except.ok.injEq, Option.some.injEq] at h
        subst h
        exact ⟨c, List.mem_cons_self _ _, hc⟩

/-- A location returned at a node comes from a result whose key path spells the
rest of the path from the current offset. -/
theorem match_sound {N L : Type} (rm : N → Option L) (loc : L) :
    ∀ (e : trieNode N) (pre suf : List UInt8),
      trieNode.match_ rm e (pre.length : Int) (pre ++ suf) = .ok (some loc) →
      ∃ d, HasRoute e suf d ∧ rm d = some loc := by
  intro e
  induction e using trieNode.induct with
  | h c ch m r ih =>
    intro pre suf h
    have h1 : ¬ ((pre.length : Int) = -1) := by omega
    rw [match_mk] at h
    simp only [h1, if_false] at h
    cases suf with
    | nil =>
      have := index_length pre
      simp [this] at h
    | cons s rest =>
      simp only [index_append_cons] at h
      by_cases hs : s = c
      · subst hs
        simp only [if_true] at h
        have hchildren : matchChildren rm ch ((pre.length : Int) + 1) (pre ++ s :: rest)
            = .ok (some loc) → ∃ d, HasRoute (.mk s ch m r) (s :: rest) d ∧ rm d = some loc := by
          intro hm
          obtain ⟨x, hx, hxm⟩ := matchChildren_some rm _ _ loc ch hm
          have h2 := ih x hx (pre ++ [s]) rest
          simp only [List.length_append, List.length_singleton, Nat.cast_add, Nat.cast_one,
            List.append_assoc, List.singleton_append] at h2
          obtain ⟨d, hd, hrm⟩ := h2 hxm
          exact ⟨d, HasRoute.child s ch m r x rest d hx hd, hrm⟩
        cases r with
        | none => exact hchildren h
        | some res =>
          by_cases hlen : (pre.length : Int) = ((pre ++ s :: rest).length : Int) - 1
          · simp only [hlen, decide_True, Except.ok.injEq] at h
            have hrest : rest = [] := by
              simp only [List.length_append, List.length_cons, Nat.cast_add, Nat.cast_one] at hlen
              apply List.eq_nil_of_length_eq_zero
              omega
            subst hrest
            exact ⟨res, HasRoute.leaf s ch m res, h⟩
          · simp only [hlen, decide_False] at h
            exact hchildren h
      · simp [hs] at h

theorem mergeInner_mem {N : Type} (c : trieNode N) (f : trieNode N → Except error (trieNode N)) :
    ∀ (ocs : List (trieNode N)) (st st1 : List UInt8 × List (trieNode N)),
      mergeInner c f ocs st = .ok st1 →
      ∀ z ∈ st1.2, z ∈ st.2 ∨ ∃ c2 ∈ ocs, f c2 = .ok z := by
  intro ocs
  induction ocs with
  | nil =>
    intro st st1 h z hz
    simp only [mergeInner, Except.ok.injEq] at h
    subst h
    exact Or.inl hz
  | cons c2 rest ih =>
    intro st st1 h z hz
    obtain ⟨merged, children⟩ := st
    rw [mergeInner] at h
    by_cases he : c.equals c2 = true
    · simp only [he, if_true] at h
      rcases hf : f c2 with err | m
      · simp [hf] at h
      · simp only [hf] at h
        rcases ih _ _ h z hz with hin | ⟨c3, hc3, hz3⟩
        · simp only [List.mem_append, List.mem_singleton] at hin
          rcases hin with hin | hin
          · exact Or.inl hin
          · subst hin
            exact Or.inr ⟨c2, List.mem_cons_self _ _, hf⟩
        · exact Or.inr ⟨c3, List.mem_cons_of_mem _ hc3, hz3⟩
    · simp only [he] at h
      rcases ih _ _ h z hz with hin | ⟨c3, hc3, hz3⟩
      · exact Or.inl hin
      · exact Or.inr ⟨c3, List.mem_cons_of_mem _ hc3, hz3⟩

theorem mergeOuter_mem {N : Type} (ocs : List (trieNode N)) :
    ∀ (cs : List (trieNode N)) (st st1 : List UInt8 × List (trieNode N)),
      mergeOuter cs ocs st = .ok st1 →
      ∀ z ∈ st1.2, z ∈ st.2 ∨ ∃ c ∈ cs, ∃ c2 ∈ ocs, c.merge c2 = .ok z := by
  intro cs
  induction cs with
  | nil =>
    intro st st1 h z hz
    simp only [mergeOuter, Except.ok.injEq] at h
    subst h
    exact Or.inl hz
  | cons c rest ih =>
    intro st st1 h z hz
    rw [mergeOuter] at h
    rcases hi : mergeInner c c.merge ocs st with err | st2
    · simp [hi] at h
    · simp only [hi] at h
      rcases ih _ _ h z hz with hin | ⟨c3, hc3, c4, hc4, hz3⟩
      · rcases mergeInner_mem c c.merge ocs st st2 hi z hin with hin0 | ⟨c2, hc2, hz2⟩
        · exact Or.inl hin0
        · exact Or.inr ⟨c, List.mem_cons_self _ _, c2, hc2, hz2⟩
      · exact Or.inr ⟨c3, List.mem_cons_of_mem _ hc3, c4, hc4, hz3⟩

theorem HasRoute.inv {N : Type} {c : UInt8} {ch : List (trieNode N)}
    {m : Option patternMatcher} {r : Option N} {w : List UInt8} {d : N}
    (h : HasRoute (.mk c ch m r) w d) :
    (r = some d ∧ w = [c]) ∨ ∃ x v, x ∈ ch ∧ w = c :: v ∧ HasRoute x v d := by
  cases h
  · exact Or.inl ⟨rfl, rfl⟩
  · rename_i x v hx hr
    exact Or.inr ⟨x, v, hx, rfl, hr⟩

/-- Every route of a merged node is a route of one of the two operands. -/
theorem merge_routes {N : Type} :
    ∀ (e o x : trieNode N), e.merge o = .ok x →
      ∀ w d, HasRoute x w d → HasRoute e w d ∨ HasRoute o w d := by
  intro e
  induction e using trieNode.induct with
  | h ec ech em er ih =>
    intro o x hm w d hx
    obtain ⟨oc, och, om, ors⟩ := o
    rw [trieNode.merge] at hm
    simp only [char_mk, children_mk, trieNode.isLeaf, result_mk] at hm
    by_cases hc : ec = oc
    · subst hc
      simp only [ne_eq, not_true_eq_false, if_false] at hm
      cases er with
      | some dr =>
        cases ors with
        | some dr2 => simp at hm
        | none =>
          simp [mergeWithLeaf] at hm
          subst hm
          rcases hx.inv with ⟨h1, h2⟩ | ⟨y, v, hy, h2, hr⟩
          · simp only [Option.some.injEq] at h1
            subst h1 h2
            exact Or.inl (HasRoute.leaf _ _ _ _)
          · subst h2
            exact Or.inr (HasRoute.child _ _ _ _ y v d hy hr)
      | none =>
        cases ors with
        | some dr2 =>
          simp [mergeWithLeaf] at hm
          subst hm
          rcases hx.inv with ⟨h1, h2⟩ | ⟨y, v, hy, h2, hr⟩
          · simp only [Option.some.injEq] at h1
            subst h1 h2
            exact Or.inr (HasRoute.leaf _ _ _ _)
          · subst h2
            exact Or.inl (HasRoute.child _ _ _ _ y v d hy hr)
        | none =>
          rcases ho : mergeOuter ech och ([], []) with err | ⟨merged, children⟩
          · simp [ho] at hm
          · simp [ho] at hm
            subst hm
            rcases hx.inv with ⟨h1, _⟩ | ⟨y, v, hy, h2, hr⟩
            · simp at h1
            · subst h2
              simp only [List.mem_append, List.mem_filter] at hy
              rcases hy with hy | hy | hy
              · rcases mergeOuter_mem och ech _ _ ho y hy with hin | ⟨c1, hc1, c2, hc2, hz⟩
                · simp at hin
                · rcases ih c1 hc1 c2 y hz v d hr with h1 | h2
                  · exact Or.inl (HasRoute.child _ _ _ _ c1 v d hc1 h1)
                  · exact Or.inr (HasRoute.child _ _ _ _ c2 v d hc2 h2)
              · exact Or.inl (HasRoute.child _ _ _ _ y v d hy.1 hr)
              · exact Or.inr (HasRoute.child _ _ _ _ y v d hy.1 hr)
    · simp [hc] at hm

theorem HasRoute_litChain {N : Type} (D : N) :
    ∀ (w : List UInt8) (ch : UInt8) (m : Option patternMatcher) (v : List UInt8) (d : N),
      HasRoute (litChain ch m w (some D)) v d → v = ch :: w ∧ d = D := by
  intro w
  induction w with
  | nil =>
    intro ch m v d h
    simp only [litChain] at h
    rcases h.inv with ⟨h1, h2⟩ | ⟨y, v, hy, _, _⟩
    · simp only [Option.some.injEq] at h1
      exact ⟨h2, h1.symm⟩
    · simp at hy
  | cons c cs ih =>
    intro ch m v d h
    simp only [litChain] at h
    rcases h.inv with ⟨h1, _⟩ | ⟨y, u, hy, h2, hr⟩
    · simp at h1
    · simp only [List.mem_singleton] at hy
      subst hy
      obtain ⟨h3, h4⟩ := ih c none u d hr
      exact ⟨by rw [h2, h3], h4⟩

theorem trie_merge_routes {N : Type} (a b t : trie N) (h : a.merge b = .ok t)
    (w : List UInt8) (d : N) (hr : t.HasRoute w d) : a.HasRoute w d ∨ b.HasRoute w d := by
  obtain ⟨root, x, hroot, hx, hxr⟩ := hr
  unfold trie.merge at h
  rcases ha : a.root with _ | ra
  · simp [ha] at h
  rcases hb : b.root with _ | rb
  · simp [ha, hb] at h
  simp only [ha, hb] at h
  rcases hm : ra.merge rb with err | rt
  · simp [hm] at h
  simp only [hm, Except.ok.injEq] at h
  subst h
  simp only [Option.some.injEq] at hroot
  subst hroot
  obtain ⟨rc, rch, rmm, rr⟩ := rt
  have h1 : exproute.HasRoute (trieNode.mk rc rch rmm rr) (rc :: w) d :=
    HasRoute.child rc rch rmm rr x w d hx hxr
  rcases merge_routes ra rb _ hm _ d h1 with h2 | h2
  · obtain ⟨y, hy, hyr⟩ := h2.of_child hxr.ne_nil
    exact Or.inl ⟨ra, y, ha, hy, hyr⟩
  · obtain ⟨y, hy, hyr⟩ := h2.of_child hxr.ne_nil
    exact Or.inr ⟨rb, y, hb, hy, hyr⟩

theorem trie_match_sound {N L : Type} (rm : N → Option L) (t : trie N) (p : List UInt8)
    (hp : p ≠ []) (loc : L) (h : t.match_ rm p = .ok (some loc)) :
    ∃ d, t.HasRoute p d ∧ rm d = some loc := by
  unfold trie.match_ at h
  rcases hr : t.root with _ | root
  · simp [hr] at h
  obtain ⟨rc, rch, rmm, rr⟩ := root
  have hl : p.length ≠ 0 := by simpa using hp
  simp only [hr, hl, if_false, match_mk, if_true] at h
  have hlen : ¬ ((-1 : Int) = (p.length : Int) - 1) := by omega
  have hch : matchChildren rm rch 0 p = .ok (some loc) := by
    cases rr with
    | none => simpa using h
    | some res => simpa [hlen] using h
  obtain ⟨x, hx, hxm⟩ := matchChildren_some rm _ _ loc rch hch
  have h2 := match_sound rm loc x [] p
  simp only [List.length_nil, Nat.cast_zero, List.nil_append] at h2
  obtain ⟨d, hd, hrm⟩ := h2 hxm
  exact ⟨d, ⟨_, x, hr, hx, hd⟩, hrm⟩

theorem parseTrie_routes {N : Type} (P : List UInt8) (D : N) (t : trie N)
    (hp : noPlaceholder P) (h : parseTrie P (some D) = .ok t) (w : List UInt8) (d : N)
    (hr : t.HasRoute w d) : w = P ∧ d = D := by
  by_cases hne : P = []
  · subst hne
    simp [parseTrie] at h
  rw [parseTrie_literal P (some D) hne hp] at h
  simp only [Except.ok.injEq] at h
  subst h
  obtain ⟨root, x, hroot, hx, hxr⟩ := hr
  simp only [Option.some.injEq] at hroot
  subst hroot
  cases P with
  | nil => exact absurd rfl hne
  | cons c cs =>
    simp only [litChain, children_mk, List.mem_singleton] at hx
    subst hx
    exact HasRoute_litChain D cs c none w d hxr

theorem builtFrom_routes {N : Type} (t : trie N) (l : List (List UInt8 × N))
    (hb : builtFrom t l) : ∀ w d, t.HasRoute w d → (w, d) ∈ l := by
  induction hb with
  | parse P D t hp h =>
    intro w d hr
    obtain ⟨h1, h2⟩ := parseTrie_routes P D t hp h w d hr
    simp [h1, h2]
  | merge a b t la lb _ _ hm iha ihb =>
    intro w d hr
    rcases trie_merge_routes a b t hm w d hr with h1 | h1
    · exact List.mem_append_left _ (iha w d h1)
    · exact List.mem_append_right _ (ihb w d h1)


theorem reParam_shape (rest : List UInt8) :
    reParam_FindStringSubmatchIndex rest = [] ∨
      ∃ j, reParam_FindStringSubmatchIndex rest = [0, j + 3, 1, j + 2] := by
  unfold reParam_FindStringSubmatchIndex
  cases rest with
  | nil => exact Or.inl rfl
  | cons c tl =>
    by_cases hc : c = 60
    · simp only [hc, ne_eq, not_true_eq_false, if_false]
      cases List.takeWhile (fun b => decide (b ≠ 47)) tl with
      | nil => exact Or.inl rfl
      | cons r run =>
        rcases hl : lastIndexOf 62 run with _ | j
        · exact Or.inl (by simp [hl])
        · exact Or.inr ⟨j, by simp [hl]⟩
    · simp [hc]

theorem makePathMatcher_error (t : List UInt8) (args : List (List UInt8)) (err : error)
    (h : makePathMatcher t args = .error err) : err ≠ .fuelExhausted := by
  unfold makePathMatcher at h
  split at h
  · unfold newStringMatcher at h
    split at h
    · simp at h
    · simp only [Except.error.injEq] at h
      subst h
      simp
  · simp only [Except.error.injEq] at h
    subst h
    simp

theorem parsePatternMatcher_cases (pattern : List UInt8) (k : Nat) (hk : k < pattern.length) :
    parsePatternMatcher k pattern = .ok (none, -1, none) ∨
    (∃ err, err ≠ error.fuelExhausted ∧
      parsePatternMatcher k pattern = .ok (none, (k : Int), some err)) ∨
    (∃ matcher e, 0 < e ∧
      parsePatternMatcher k pattern = .ok (some matcher, ((k + e : Nat) : Int), none)) := by
  have hidx : index pattern (k : Int) = .ok pattern[k] := by simp [index, hk]
  simp only [parsePatternMatcher, hidx]
  by_cases hc : pattern[k] = 60
  · simp only [hc, ne_eq, not_true_eq_false, if_false, Int.toNat_ofNat]
    rcases reParam_shape (pattern.drop k) with hm | ⟨j, hm⟩
    · simp [hm]
    · simp only [hm, List.length_cons, List.length_nil]
      simp only [Nat.reduceAdd, OfNat.ofNat_ne_zero, if_false]
      generalize (if (strings_Split 58 _).length = 1 then _ else _ :
        List UInt8 × List (List UInt8)) = ta
      rcases hmk : makePathMatcher ta.1 ta.2 with err | matcher
      · exact Or.inr (Or.inl ⟨err, makePathMatcher_error _ _ _ hmk, rfl⟩)
      · refine Or.inr (Or.inr ⟨matcher, j + 3, by omega, ?_⟩)
        simp
  · simp [hc]

/-- One step of `parseExpression` before the last byte: an error that does not
depend on the destination, or one child parsed from a later offset. -/
theorem parseExpression_step {N : Type} (fuel : Nat) (p : trieNode N) (k : Nat)
    (pattern : List UInt8) (hlt : k < pattern.length) :
    (∃ err, err ≠ error.fuelExhausted ∧ ∀ res : Option N,
      trieNode.parseExpression (fuel + 1) p ((k : Int) - 1) pattern res = .error err) ∨
    (∃ (c : UInt8) (m : Option patternMatcher) (k1 : Nat), k < k1 ∧ ∀ res : Option N,
      trieNode.parseExpression (fuel + 1) p ((k : Int) - 1) pattern res =
        match trieNode.parseExpression fuel (.mk c [] m none) ((k1 : Int) - 1) pattern res with
        | .error e => .error e
        | .ok node => .ok (.mk p.char [node] p.matcher p.result)) := by
  have h1 : ¬ ((k : Int) - 1 ≥ (pattern.length : Int) - 1) := by omega
  have hidx : index pattern (k : Int) = .ok pattern[k] := by simp [index, hlt]
  rcases parsePatternMatcher_cases pattern k hlt with h | ⟨err, hne, h⟩ | ⟨matcher, e, he, h⟩
  · refine Or.inr ⟨pattern[k], none, k + 1, by omega, fun res => ?_⟩
    rw [trieNode.parseExpression]
    simp only [h1, if_false, sub_add_cancel, h, hidx, Nat.cast_add, Nat.cast_one,
      add_sub_cancel_right]
  · refine Or.inl ⟨err, hne, fun res => ?_⟩
    rw [trieNode.parseExpression]
    simp only [h1, if_false, sub_add_cancel, h]
  · refine Or.inr ⟨0, some matcher, k + e, by omega, fun res => ?_⟩
    rw [trieNode.parseExpression]
    simp only [h1, if_false, sub_add_cancel, h]

theorem parseExpression_leaf {N : Type} (fuel : Nat) (p : trieNode N) (k : Nat)
    (pattern : List UInt8) (hge : pattern.length ≤ k) (res : Option N) :
    trieNode.parseExpression (fuel + 1) p ((k : Int) - 1) pattern res =
      .ok (.mk p.char p.children p.matcher res) := by
  have h1 : (k : Int) - 1 ≥ (pattern.length : Int) - 1 := by omega
  rw [trieNode.parseExpression]
  simp only [h1, if_true]

/-- The budget `len(pattern) + 1` is never used up. -/
theorem parseExpression_fuel {N : Type} (pattern : List UInt8) (res : Option N) :
    ∀ (fuel k : Nat) (p : trieNode N), pattern.length - k < fuel →
      trieNode.parseExpression fuel p ((k : Int) - 1) pattern res ≠ .error .fuelExhausted := by
  intro fuel
  induction fuel with
  | zero => intro k p h; omega
  | succ fuel ih =>
    intro k p hf
    by_cases hlt : k < pattern.length
    · rcases parseExpression_step fuel p k pattern hlt with ⟨err, hne, h⟩ | ⟨c, m, k1, hk1, h⟩
      · rw [h res]
        simpa using hne
      · rw [h res]
        have := ih k1 (.mk c [] m none) (by omega)
        rcases hr : trieNode.parseExpression fuel (trieNode.mk c [] m none) ((k1 : Int) - 1)
          pattern res with e | node
        · rw [hr] at this
          simpa using this
        · simp
    · rw [parseExpression_leaf fuel p k pattern (by omega) res]
      simp

theorem parseTrie_fuel {N : Type} (pattern : List UInt8) (res : Option N) :
    parseTrie pattern res ≠ .error .fuelExhausted := by
  unfold parseTrie
  split
  · simp
  · have h := parseExpression_fuel pattern res (pattern.length + 1) 0 (.mk 0 [] none none)
      (by omega)
    simp only [Nat.cast_zero, zero_sub] at h
    rcases hr : trieNode.parseExpression (pattern.length + 1) (trieNode.mk 0 [] none none) (-1)
      pattern res with e | node
    · rw [hr] at h
      simpa using h
    · simp

theorem equals_of_key {N : Type} (a b : trieNode N) (hc : a.char = b.char)
    (hm : a.matcher = b.matcher) : a.equals b = true := by
  unfold trieNode.equals
  rw [hc, hm]
  cases b.matcher with
  | none => simp
  | some m =>
    cases m
    simp [patternMatcher.equals, patternMatcher.getName]

theorem parseExpression_key {N : Type} (pattern : List UInt8) (res : Option N) :
    ∀ (fuel k : Nat) (p n : trieNode N),
      trieNode.parseExpression fuel p ((k : Int) - 1) pattern res = .ok n →
      n.char = p.char ∧ n.matcher = p.matcher := by
  intro fuel k p n h
  cases fuel with
  | zero => simp [trieNode.parseExpression] at h
  | succ fuel =>
    by_cases hlt : k < pattern.length
    · rcases parseExpression_step fuel p k pattern hlt with ⟨err, _, h1⟩ | ⟨c, m, k1, _, h1⟩
      · rw [h1 res] at h
        simp at h
      · rw [h1 res] at h
        rcases hr : trieNode.parseExpression fuel (trieNode.mk c [] m none) ((k1 : Int) - 1)
          pattern res with e | node
        · simp [hr] at h
        · simp only [hr, Except.ok.injEq] at h
          subst h
          simp
    · rw [parseExpression_leaf fuel p k pattern (by omega) res] at h
      simp only [Except.ok.injEq] at h
      subst h
      simp

/-- Whether a pattern parses does not depend on the destination. -/
theorem parseExpression_ok_indep {N : Type} (pattern : List UInt8) (r1 r2 : Option N) :
    ∀ (fuel k : Nat) (p n1 : trieNode N),
      trieNode.parseExpression fuel p ((k : Int) - 1) pattern r1 = .ok n1 →
      ∃ n2, trieNode.parseExpression fuel p ((k : Int) - 1) pattern r2 = .ok n2 := by
  intro fuel
  induction fuel with
  | zero => intro k p n1 h; simp [trieNode.parseExpression] at h
  | succ fuel ih =>
    intro k p n1 h
    by_cases hlt : k < pattern.length
    · rcases parseExpression_step fuel p k pattern hlt with ⟨err, _, h1⟩ | ⟨c, m, k1, _, h1⟩
      · rw [h1 r1] at h
        simp at h
      · rw [h1 r1] at h
        rw [h1 r2]
        rcases hr : trieNode.parseExpression fuel (trieNode.mk c [] m none) ((k1 : Int) - 1)
          pattern r1 with e | node
        · simp [hr] at h
        · obtain ⟨n2, hn2⟩ := ih k1 _ node hr
          exact ⟨_, by rw [hn2]⟩
    · exact ⟨_, parseExpression_leaf fuel p k pattern (by omega) r2⟩

/-- Two parses of one pattern with non-nil destinations do not merge. -/
theorem merge_same_pattern {N : Type} (pattern : List UInt8) (D1 D2 : N) :
    ∀ (fuel k : Nat) (p n1 n2 : trieNode N), p.result = none →
      trieNode.parseExpression fuel p ((k : Int) - 1) pattern (some D1) = .ok n1 →
      trieNode.parseExpression fuel p ((k : Int) - 1) pattern (some D2) = .ok n2 →
      n1.merge n2 = .error .twoLeafNodes := by
  intro fuel
  induction fuel with
  | zero => intro k p n1 n2 _ h; simp [trieNode.parseExpression] at h
  | succ fuel ih =>
    intro k p n1 n2 hres h1 h2
    by_cases hlt : k < pattern.length
    · rcases parseExpression_step fuel p k pattern hlt with ⟨err, _, hs⟩ | ⟨c, m, k1, _, hs⟩
      · rw [hs] at h1
        simp at h1
      · rw [hs] at h1 h2
        rcases hr1 : trieNode.parseExpression fuel (trieNode.mk c [] m none) ((k1 : Int) - 1)
          pattern (some D1) with e | node1
        · simp [hr1] at h1
        rcases hr2 : trieNode.parseExpression fuel (trieNode.mk c [] m none) ((k1 : Int) - 1)
          pattern (some D2) with e | node2
        · simp [hr2] at h2
        simp only [hr1, Except.ok.injEq] at h1
        simp only [hr2, Except.ok.injEq] at h2
        subst h1 h2
        have hm := ih k1 (trieNode.mk c [] m none) node1 node2 rfl hr1 hr2
        obtain ⟨hc1, hm1⟩ := parseExpression_key pattern _ fuel k1 _ node1 hr1
        obtain ⟨hc2, hm2⟩ := parseExpression_key pattern _ fuel k1 _ node2 hr2
        have he : node1.equals node2 = true :=
          equals_of_key node1 node2 (by rw [hc1, hc2]) (by rw [hm1, hm2])
        simp [trieNode.merge, trieNode.isLeaf, hres, mergeOuter, mergeInner, he, hm]
    · rw [parseExpression_leaf fuel p k pattern (by omega)] at h1 h2
      simp only [Except.ok.injEq] at h1 h2
      subst h1 h2
      simp [trieNode.merge, trieNode.isLeaf]

theorem match_litChain_extension_root {N L : Type} (rm : N → Option L) (D : N)
    (P R : List UInt8) (hne : P ≠ []) (hR : R ≠ []) (m : Option patternMatcher) (ch : UInt8) :
    trieNode.match_ rm (litChain ch m P (some D)) (-1) (P ++ R) = .ok none := by
  cases P with
  | nil => exact absurd rfl hne
  | cons c cs =>
    have h := match_litChain_extension rm D R hR cs [] c none
    simp only [List.length_nil, Nat.cast_zero, List.nil_append] at h
    simp only [litChain, match_mk, if_true, List.cons_append]
    exact matchChildren_single rm _ _ _ _ h

theorem match_forked_short_root {N L : Type} (rm : N → Option L) (D1 : N) (r : UInt8)
    (R : List UInt8) (D2 : N) (P : List UInt8) (hne : P ≠ []) (m : Option patternMatcher)
    (ch : UInt8) :
    trieNode.match_ rm (forked D1 r R D2 ch m P) (-1) P = .ok (rm D1) := by
  cases P with
  | nil => exact absurd rfl hne
  | cons c cs =>
    have h := match_forked_short rm D1 r R D2 cs [] c none
    simp only [List.length_nil, Nat.cast_zero, List.nil_append] at h
    simp only [forked, match_mk, if_true]
    exact matchChildren_single rm _ _ _ _ h

theorem match_forked_long_root {N L : Type} (rm : N → Option L) (D1 : N) (r : UInt8)
    (R : List UInt8) (D2 : N) (P : List UInt8) (hne : P ≠ []) (m : Option patternMatcher)
    (ch : UInt8) :
    trieNode.match_ rm (forked D1 r R D2 ch m P) (-1) (P ++ r :: R) = .ok (rm D2) := by
  cases P with
  | nil => exact absurd rfl hne
  | cons c cs =>
    have h := match_forked_long rm D1 r R D2 cs [] c none
    simp only [List.length_nil, Nat.cast_zero, List.nil_append] at h
    simp only [forked, match_mk, if_true, List.cons_append]
    exact matchChildren_single rm _ _ _ _ h

theorem trie_match_nonempty {N L : Type} (rm : N → Option L) (root : trieNode N)
    (path : List UInt8) (hne : path ≠ []) :
    trie.match_ rm ⟨some root⟩ path = root.match_ rm (-1) path := by
  have hl : path.length ≠ 0 := by simpa using hne
  simp only [trie.match_, hl, if_false]

/-! ## Lemmas on merge, the sibling invariant and the scan of the parser -/

theorem descend_litChain {N : Type} (r : Option N) :
    ∀ (w : List UInt8) (ch : UInt8) (m : Option patternMatcher) (k : Nat) (hk : k < w.length),
      descend (litChain ch m w r) (k + 1) = some (litChain w[k] none (w.drop (k + 1)) r) := by
  intro w
  induction w with
  | nil => intro ch m k hk; simp at hk
  | cons c cs ih =>
    intro ch m k hk
    cases k with
    | zero => simp [litChain, descend]
    | succ k =>
      have hk2 : k < cs.length := by simpa using hk
      have := ih c none k hk2
      simp only [litChain, descend, children_mk, List.getElem_cons_succ, List.drop_succ_cons]
      exact this

theorem litChain_result {N : Type} (ch : UInt8) (m : Option patternMatcher) (w : List UInt8)
    (r : Option N) : (litChain ch m w r).result = if w = [] then r else none := by
  cases w <;> simp [litChain]

theorem litChain_children_nil {N : Type} (ch : UInt8) (m : Option patternMatcher)
    (r : Option N) : (litChain ch m [] r).children = [] := rfl

theorem litChain_children_cons {N : Type} (ch : UInt8) (m : Option patternMatcher)
    (c : UInt8) (cs : List UInt8) (r : Option N) :
    (litChain ch m (c :: cs) r).children = [litChain c none cs r] := rfl

theorem mergeInner_spec {N : Type} (c : trieNode N)
    (f : trieNode N → Except error (trieNode N)) :
    ∀ (ocs : List (trieNode N)) (st st1 : List UInt8 × List (trieNode N)),
      mergeInner c f ocs st = .ok st1 →
      ∃ ms, List.Forall₂ (fun c2 m => f c2 = .ok m) (ocs.filter (fun c2 => c.equals c2)) ms ∧
        st1.2 = st.2 ++ ms ∧ ∀ k, k ∈ st1.1 ↔ k ∈ st.1 ∨ (k = c.char ∧ ms ≠ []) := by
  intro ocs
  induction ocs with
  | nil =>
    intro st st1 h
    simp only [mergeInner, Except.ok.injEq] at h
    subst h
    exact ⟨[], by simp, by simp, by simp⟩
  | cons c2 rest ih =>
    intro st st1 h
    obtain ⟨merged, children⟩ := st
    rw [mergeInner] at h
    by_cases he : c.equals c2 = true
    · simp only [he, if_true] at h
      rcases hf : f c2 with err | m
      · simp [hf] at h
      · simp only [hf] at h
        obtain ⟨ms, h1, h2, h3⟩ := ih _ _ h
        refine ⟨m :: ms, ?_, ?_, ?_⟩
        · simp only [List.filter_cons, he, if_true]
          exact List.Forall₂.cons hf h1
        · simp [h2]
        · intro k
          rw [h3 k]
          simp only [List.mem_cons, ne_eq, reduceCtorEq, not_false_eq_true, and_true]
          tauto
    · simp only [he] at h
      obtain ⟨ms, h1, h2, h3⟩ := ih _ _ h
      refine ⟨ms, ?_, h2, h3⟩
      simp only [List.filter_cons, he]
      exact h1

theorem forall₂_ne_nil_iff {α β : Type} {R : α → β → Prop} {l : List α} {ms : List β}
    (h : List.Forall₂ R l ms) : ms ≠ [] ↔ ∃ x, x ∈ l := by
  cases h with
  | nil => simp
  | cons hab htl => simp

theorem forall₂_and_of_mem {α β : Type} {R : α → β → Prop} {Q : α → Prop} {l : List α}
    {ms : List β} (h : List.Forall₂ R l ms) (hq : ∀ x ∈ l, Q x) :
    List.Forall₂ (fun x m => Q x ∧ R x m) l ms := by
  induction h with
  | nil => exact List.Forall₂.nil
  | cons hab _ ih =>
    exact List.Forall₂.cons ⟨hq _ (List.mem_cons_self _ _), hab⟩
      (ih (fun x hx => hq x (List.mem_cons_of_mem _ hx)))

theorem mergeOuter_spec {N : Type} (ocs : List (trieNode N)) :
    ∀ (cs : List (trieNode N)) (st st1 : List UInt8 × List (trieNode N)),
      mergeOuter cs ocs st = .ok st1 →
      ∃ ms, List.Forall₂ (fun p m => p.1.equals p.2 = true ∧ p.1.merge p.2 = .ok m)
          (equalPairs cs ocs) ms ∧
        st1.2 = st.2 ++ ms ∧
        ∀ k, k ∈ st1.1 ↔ k ∈ st.1 ∨ ∃ p ∈ equalPairs cs ocs, p.1.char = k := by
  intro cs
  induction cs with
  | nil =>
    intro st st1 h
    simp only [mergeOuter, Except.ok.injEq] at h
    subst h
    exact ⟨[], by simp [equalPairs], by simp, by simp [equalPairs]⟩
  | cons c rest ih =>
    intro st st1 h
    rw [mergeOuter] at h
    rcases hi : mergeInner c c.merge ocs st with err | st2
    · simp [hi] at h
    · simp only [hi] at h
      obtain ⟨ms1, h1, h2, h3⟩ := mergeInner_spec c c.merge ocs st st2 hi
      obtain ⟨ms2, g1, g2, g3⟩ := ih _ _ h
      have hp1 : List.Forall₂ (fun p m => p.1.equals p.2 = true ∧ p.1.merge p.2 = .ok m)
          ((ocs.filter (fun c2 => c.equals c2)).map (fun c2 => (c, c2))) ms1 := by
        rw [List.forall₂_map_left_iff]
        exact forall₂_and_of_mem h1 (fun c2 hc2 => (List.mem_filter.mp hc2).2)
      refine ⟨ms1 ++ ms2, ?_, ?_, ?_⟩
      · simp only [equalPairs, List.flatMap_cons]
        exact List.rel_append hp1 g1
      · rw [g2, h2, List.append_assoc]
      · intro k
        rw [g3 k, h3 k]
        have hne := forall₂_ne_nil_iff h1
        simp only [equalPairs, List.flatMap_cons, List.mem_append, List.mem_map,
          List.mem_filter]
        constructor
        · rintro ((hk | ⟨hk, hnn⟩) | hk)
          · exact Or.inl hk
          · obtain ⟨c2, hc2⟩ := hne.mp hnn
            exact Or.inr ⟨(c, c2), Or.inl ⟨c2, List.mem_filter.mp hc2, rfl⟩, hk.symm⟩
          · obtain ⟨p, hp, hpk⟩ := hk
            exact Or.inr ⟨p, Or.inr hp, hpk⟩
        · rintro (hk | ⟨p, (⟨c2, hc2, rfl⟩ | hp), hpk⟩)
          · exact Or.inl (Or.inl hk)
          · exact Or.inl (Or.inr ⟨hpk.symm, hne.mpr ⟨c2, List.mem_filter.mpr hc2⟩⟩)
          · exact Or.inr ⟨p, hp, hpk⟩

/-- The children of a successful merge of two nodes without a result: the
merged pairs, then the children of the left node whose key byte was not
merged, then those of the right node. -/
theorem merge_nonleaf_spec {N : Type} (A B X : trieNode N) (hA : A.result = none)
    (hB : B.result = none) (h : A.merge B = .ok X) :
    ∃ ms, List.Forall₂ (fun p m => p.1.equals p.2 = true ∧ p.1.merge p.2 = .ok m)
        (equalPairs A.children B.children) ms ∧
      X.children = ms ++
        A.children.filter (fun c =>
          !((equalPairs A.children B.children).map (fun p => p.1.char)).contains c.char) ++
        B.children.filter (fun c =>
          !((equalPairs A.children B.children).map (fun p => p.1.char)).contains c.char) ∧
      X.char = A.char ∧ X.matcher = A.matcher ∧ X.result = none ∧ A.char = B.char := by
  obtain ⟨ac, ach, am, ar⟩ := A
  obtain ⟨bc, bch, bm, br⟩ := B
  simp only [result_mk] at hA hB
  subst hA hB
  rw [trieNode.merge] at h
  by_cases hc : ac = bc
  · subst hc
    simp only [char_mk, ne_eq, not_true_eq_false, if_false, Option.isSome_none,
      Bool.false_and, Bool.false_eq_true, trieNode.isLeaf, result_mk, children_mk] at h
    rcases ho : mergeOuter ach bch ([], []) with err | ⟨merged, children⟩
    · simp [ho] at h
    · simp only [ho, Except.ok.injEq] at h
      subst h
      obtain ⟨ms, h1, h2, h3⟩ := mergeOuter_spec bch ach _ _ ho
      simp only [List.nil_append] at h2
      subst h2
      refine ⟨children, h1, ?_, rfl, rfl, rfl, rfl⟩
      have hf : ∀ c : trieNode N, (!merged.contains c.char) =
          !((equalPairs ach bch).map (fun p => p.1.char)).contains c.char := by
        intro c
        congr 1
        rw [Bool.eq_iff_iff]
        have := h3 c.char
        simp only [List.not_mem_nil, false_or] at this
        simp [this]
      simp only [children_mk, hf]
  · simp [hc] at h

theorem equals_iff_key {N : Type} (a b : trieNode N) : a.equals b = true ↔ a.key = b.key := by
  obtain ⟨ac, ach, am, ar⟩ := a
  obtain ⟨bc, bch, bm, br⟩ := b
  cases am with
  | none =>
    cases bm with
    | none => simp [trieNode.equals, trieNode.key]
    | some m => simp [trieNode.equals, trieNode.key]
  | some m1 =>
    cases bm with
    | none => simp [trieNode.equals, trieNode.key]
    | some m2 =>
      cases m1
      cases m2
      simp only [trieNode.equals, trieNode.key, patternMatcher.equals, patternMatcher.getName,
        matcher_mk, Option.isNone_some, Bool.and_false, Bool.false_or, beq_iff_eq,
        Sum.inr.injEq]
      exact eq_comm

theorem equals_false_iff_key {N : Type} (a b : trieNode N) :
    a.equals b = false ↔ a.key ≠ b.key := by
  rw [ne_eq, ← equals_iff_key]
  simp

theorem merge_ok_char {N : Type} (a b m : trieNode N) (h : a.merge b = .ok m) :
    a.char = b.char := by
  obtain ⟨ac, ach, am, ar⟩ := a
  rw [trieNode.merge] at h
  by_contra hc
  simp only [char_mk] at hc
  simp [hc] at h

theorem merge_key {N : Type} (a b m : trieNode N) (h : a.merge b = .ok m)
    (he : a.equals b = true) : m.key = a.key := by
  have hc := merge_ok_char a b m h
  have hk := (equals_iff_key a b).mp he
  obtain ⟨ac, ach, am, ar⟩ := a
  obtain ⟨bc, bch, bm, br⟩ := b
  simp only [char_mk] at hc
  subst hc
  rw [trieNode.merge] at h
  simp only [char_mk, ne_eq, not_true_eq_false, if_false, trieNode.isLeaf, result_mk,
    children_mk, mergeWithLeaf, matcher_mk] at h
  split at h
  · simp at h
  · split at h
    · simp only [Except.ok.injEq] at h
      subst h
      rw [hk]
      simp [trieNode.key]
    · split at h
      · simp only [Except.ok.injEq] at h
        subst h
        simp [trieNode.key]
      · split at h
        · simp at h
        · simp only [Except.ok.injEq] at h
          subst h
          simp [trieNode.key]

theorem noEqualSiblings_mk {N : Type} (c : UInt8) (ch : List (trieNode N))
    (m : Option patternMatcher) (r : Option N) :
    noEqualSiblings (.mk c ch m r) ↔
      ch.Pairwise (fun a b => a.equals b = false) ∧ ∀ x ∈ ch, noEqualSiblings x := by
  constructor
  · intro h
    refine ⟨h _ (Within.self _), fun x hx y hy => h y (Within.step _ x y hx hy)⟩
  · rintro ⟨h1, h2⟩ x hx
    cases hx with
    | self => exact h1
    | step _ c2 _ hc hw => exact h2 c2 hc x hw

theorem noEqualSiblings_congr {N : Type} (a b : trieNode N) (h : a.children = b.children)
    (ha : noEqualSiblings a) : noEqualSiblings b := by
  obtain ⟨ac, ach, am, ar⟩ := a
  obtain ⟨bc, bch, bm, br⟩ := b
  simp only [children_mk] at h
  subst h
  rw [noEqualSiblings_mk] at ha ⊢
  exact ha

theorem parseExpression_noEqualSiblings {N : Type} (pattern : List UInt8) (res : Option N) :
    ∀ (fuel k : Nat) (p n : trieNode N), noEqualSiblings p →
      trieNode.parseExpression fuel p ((k : Int) - 1) pattern res = .ok n →
      noEqualSiblings n := by
  intro fuel
  induction fuel with
  | zero => intro k p n _ h; simp [trieNode.parseExpression] at h
  | succ fuel ih =>
    intro k p n hp h
    by_cases hlt : k < pattern.length
    · rcases parseExpression_step fuel p k pattern hlt with ⟨err, _, h1⟩ | ⟨c, m, k1, _, h1⟩
      · rw [h1 res] at h
        simp at h
      · rw [h1 res] at h
        rcases hr : trieNode.parseExpression fuel (trieNode.mk c [] m none) ((k1 : Int) - 1)
          pattern res with e | node
        · simp [hr] at h
        · simp only [hr, Except.ok.injEq] at h
          subst h
          have hnode := ih k1 (trieNode.mk c [] m none) node
            ((noEqualSiblings_mk _ _ _ _).mpr ⟨List.Pairwise.nil, by simp⟩) hr
          rw [noEqualSiblings_mk]
          exact ⟨List.pairwise_singleton _ _, by simpa using hnode⟩
    · rw [parseExpression_leaf fuel p k pattern (by omega) res] at h
      simp only [Except.ok.injEq] at h
      subst h
      exact noEqualSiblings_congr p _ rfl hp

theorem key_injOn {N : Type} (l : List (trieNode N))
    (hl : l.Pairwise (fun a b => a.equals b = false)) (x y : trieNode N) (hx : x ∈ l)
    (hy : y ∈ l) (hk : x.key = y.key) : x = y := by
  have hnd : (l.map trieNode.key).Nodup := by
    rw [List.Nodup, List.pairwise_map]
    exact hl.imp (fun h => (equals_false_iff_key _ _).mp h)
  exact List.inj_on_of_nodup_map hnd hx hy hk

theorem equalPairs_mem {N : Type} (ech och : List (trieNode N)) (p : trieNode N × trieNode N) :
    p ∈ equalPairs ech och ↔ p.1 ∈ ech ∧ p.2 ∈ och ∧ p.1.equals p.2 = true := by
  obtain ⟨a, b⟩ := p
  simp only [equalPairs, List.mem_flatMap, List.mem_map, List.mem_filter, Prod.mk.injEq]
  constructor
  · rintro ⟨c, hc, c2, ⟨hc2, he⟩, rfl, rfl⟩
    exact ⟨hc, hc2, he⟩
  · rintro ⟨h1, h2, h3⟩
    exact ⟨a, h1, b, ⟨h2, h3⟩, rfl, rfl⟩

theorem equalPairs_pairwise {N : Type} (ech och : List (trieNode N))
    (he : ech.Pairwise (fun a b => a.equals b = false))
    (ho : och.Pairwise (fun a b => a.equals b = false)) :
    (equalPairs ech och).Pairwise (fun p q => p.1.key ≠ q.1.key) := by
  unfold equalPairs
  rw [List.pairwise_flatMap]
  constructor
  · intro c _
    rw [List.pairwise_map]
    have hf : (och.filter (fun c2 => c.equals c2)).Pairwise (fun a b => a.equals b = false) :=
      ho.sublist (List.filter_sublist _)
    refine hf.imp_of_mem ?_
    intro a b ha hb hab
    exfalso
    have h1 := (equals_iff_key _ _).mp (List.mem_filter.mp ha).2
    have h2 := (equals_iff_key _ _).mp (List.mem_filter.mp hb).2
    exact (equals_false_iff_key _ _).mp hab (by rw [← h1, ← h2])
  · refine he.imp ?_
    intro a b hab x hx y hy
    simp only [List.mem_map, List.mem_filter] at hx hy
    obtain ⟨_, _, rfl⟩ := hx
    obtain ⟨_, _, rfl⟩ := hy
    exact (equals_false_iff_key _ _).mp hab

theorem forall₂_mem_right {α β : Type} {S : α → β → Prop} {l : List α} {ms : List β}
    (h : List.Forall₂ S l ms) (m : β) (hm : m ∈ ms) : ∃ a, a ∈ l ∧ S a m := by
  induction h with
  | nil => simp at hm
  | cons hab _ ih =>
    rcases List.mem_cons.mp hm with rfl | hm2
    · exact ⟨_, List.mem_cons_self _ _, hab⟩
    · obtain ⟨a, ha, ham⟩ := ih hm2
      exact ⟨a, List.mem_cons_of_mem _ ha, ham⟩

theorem forall₂_pairwise {α β : Type} {S : α → β → Prop} {R : α → α → Prop}
    {T : β → β → Prop} {l : List α} {ms : List β} (h : List.Forall₂ S l ms)
    (hl : l.Pairwise R) (himp : ∀ a b m n, S a m → S b n → R a b → T m n) :
    ms.Pairwise T := by
  induction h with
  | nil => exact List.Pairwise.nil
  | cons hab htl ih =>
    rename_i a m l1 ms1
    rw [List.pairwise_cons] at hl ⊢
    refine ⟨?_, ih hl.2⟩
    intro n hn
    obtain ⟨b, hb, hbn⟩ := forall₂_mem_right htl n hn
    exact himp a b m n hab hbn (hl.1 b hb)

/-- A successful merge of two trees without equal siblings has no equal
siblings. -/
theorem merge_noEqualSiblings {N : Type} :
    ∀ (e o x : trieNode N), noEqualSiblings e → noEqualSiblings o → e.merge o = .ok x →
      noEqualSiblings x := by
  intro e
  induction e using trieNode.induct with
  | h ec ech em er ih =>
    intro o x he ho hm
    obtain ⟨oc, och, om, ors⟩ := o
    cases er with
    | some dr =>
      cases ors with
      | some dr2 =>
        rw [trieNode.merge] at hm
        by_cases hc : ec = oc
        · simp [hc, trieNode.isLeaf] at hm
        · simp [hc] at hm
      | none =>
        rw [trieNode.merge] at hm
        by_cases hc : ec = oc
        · simp [hc, trieNode.isLeaf, mergeWithLeaf] at hm
          subst hm
          exact noEqualSiblings_congr (trieNode.mk oc och om none) _ rfl ho
        · simp [hc] at hm
    | none =>
      cases ors with
      | some dr2 =>
        rw [trieNode.merge] at hm
        by_cases hc : ec = oc
        · simp [hc, trieNode.isLeaf, mergeWithLeaf] at hm
          subst hm
          exact noEqualSiblings_congr (trieNode.mk ec ech em none) _ rfl he
        · simp [hc] at hm
      | none =>
        obtain ⟨ms, h1, h2, -, -, -, hcc⟩ := merge_nonleaf_spec (trieNode.mk ec ech em none)
          (trieNode.mk oc och om none) x rfl rfl hm
        simp only [children_mk] at h1 h2
        rw [noEqualSiblings_mk] at he ho
        obtain ⟨hep, hec⟩ := he
        obtain ⟨hop, hoc⟩ := ho
        obtain ⟨xc, xch, xm, xr⟩ := x
        simp only [children_mk] at h2
        subst h2
        rw [noEqualSiblings_mk]
        have hkeys : ∀ c : trieNode N,
            (c.char ∈ (equalPairs ech och).map (fun p => p.1.char)) ↔
              ∃ p ∈ equalPairs ech och, p.1.char = c.char := by
          intro c
          simp [List.mem_map]
        have hmerged : ∀ m ∈ ms, ∃ p ∈ equalPairs ech och,
            p.1.equals p.2 = true ∧ p.1.merge p.2 = .ok m := by
          intro m hmm
          obtain ⟨p, hp, hpm⟩ := forall₂_mem_right h1 m hmm
          exact ⟨p, hp, hpm⟩
        constructor
        · rw [List.pairwise_append, List.pairwise_append]
          refine ⟨⟨?_, hep.sublist (List.filter_sublist _), ?_⟩,
            hop.sublist (List.filter_sublist _), ?_⟩
          · refine forall₂_pairwise h1 (equalPairs_pairwise ech och hep hop) ?_
            intro a b m n ham hbn hab
            rw [equals_false_iff_key, merge_key _ _ _ ham.2 ham.1, merge_key _ _ _ hbn.2 hbn.1]
            exact hab
          · intro m hmm c hc
            obtain ⟨p, hp, hpe, hpm⟩ := hmerged m hmm
            obtain ⟨hp1, hp2, _⟩ := (equalPairs_mem ech och p).mp hp
            simp only [List.mem_filter, Bool.not_eq_true', List.contains_eq_any_beq] at hc
            rw [equals_false_iff_key, merge_key _ _ _ hpm hpe]
            intro hk
            have heq := key_injOn ech hep p.1 c hp1 hc.1 hk
            have hin : c.char ∈ (equalPairs ech och).map (fun p => p.1.char) :=
              (hkeys c).mpr ⟨p, hp, by rw [heq]⟩
            have hnot := hc.2
            rw [← List.contains_eq_any_beq, ← Bool.not_eq_true] at hnot
            exact hnot (List.elem_iff.mpr hin)
          · intro y hy c hc
            simp only [List.mem_append] at hy
            simp only [List.mem_filter, Bool.not_eq_true', List.contains_eq_any_beq] at hc
            have hnot := hc.2
            rw [← List.contains_eq_any_beq, ← Bool.not_eq_true] at hnot
            rw [equals_false_iff_key]
            intro hk
            rcases hy with hmm | hy
            · obtain ⟨p, hp, hpe, hpm⟩ := hmerged y hmm
              obtain ⟨hp1, hp2, _⟩ := (equalPairs_mem ech och p).mp hp
              rw [merge_key _ _ _ hpm hpe, (equals_iff_key _ _).mp hpe] at hk
              have heq := key_injOn och hop p.2 c hp2 hc.1 hk
              have hch := merge_ok_char _ _ _ hpm
              exact hnot (List.elem_iff.mpr ((hkeys c).mpr ⟨p, hp, by rw [hch, heq]⟩))
            · simp only [List.mem_filter] at hy
              have hpair : (y, c) ∈ equalPairs ech och :=
                (equalPairs_mem ech och (y, c)).mpr ⟨hy.1, hc.1, (equals_iff_key _ _).mpr hk⟩
              have hch := merge_ok_char y c
              have hyc : y.char ∈ (equalPairs ech och).map (fun p => p.1.char) :=
                (hkeys y).mpr ⟨(y, c), hpair, rfl⟩
              have hnoty := hy.2
              simp only [Bool.not_eq_true', List.contains_eq_any_beq] at hnoty
              rw [← List.contains_eq_any_beq, ← Bool.not_eq_true] at hnoty
              exact hnoty (List.elem_iff.mpr hyc)
        · intro y hy
          simp only [List.mem_append, List.mem_filter] at hy
          rcases hy with (hmm | hy) | hy
          · obtain ⟨p, hp, hpe, hpm⟩ := hmerged y hmm
            obtain ⟨hp1, hp2, _⟩ := (equalPairs_mem ech och p).mp hp
            exact ih p.1 hp1 p.2 y (hec _ hp1) (hoc _ hp2) hpm
          · exact hec y hy.1
          · exact hoc y hy.1

theorem obtained_noEqualSiblings {N : Type} (t : trie N) (h : obtained t) :
    ∀ root, t.root = some root → noEqualSiblings root := by
  induction h with
  | parse P D t hp =>
    intro root hroot
    unfold parseTrie at hp
    split at hp
    · simp at hp
    · rcases hr : trieNode.parseExpression (P.length + 1) (trieNode.mk 0 [] none none) (-1)
        P D with e | n
      · simp [hr] at hp
      · simp only [hr, Except.ok.injEq] at hp
        subst hp
        simp only [Option.some.injEq] at hroot
        subst hroot
        have hr0 : trieNode.parseExpression (P.length + 1) (trieNode.mk 0 [] none none)
            (((0 : Nat) : Int) - 1) P D = .ok n := by simpa using hr
        exact parseExpression_noEqualSiblings P D _ 0 _ n
          ((noEqualSiblings_mk _ _ _ _).mpr ⟨List.Pairwise.nil, by simp⟩) hr0
  | merge a b t _ _ hm iha ihb =>
    intro root hroot
    unfold trie.merge at hm
    rcases ha : a.root with _ | ra
    · simp [ha] at hm
    rcases hb : b.root with _ | rb
    · simp [ha, hb] at hm
    simp only [ha, hb] at hm
    rcases hmr : ra.merge rb with err | rt
    · simp [hmr] at hm
    simp only [hmr, Except.ok.injEq] at hm
    subst hm
    simp only [Option.some.injEq] at hroot
    subst hroot
    exact merge_noEqualSiblings ra rb _ (iha ra ha) (ihb rb hb) hmr

theorem makePathMatcher_ok_iff (ty : List UInt8) (args : List (List UInt8)) :
    (∃ M, makePathMatcher ty args = .ok M) ↔ ty = str "string" ∧ args.length = 1 := by
  unfold makePathMatcher newStringMatcher
  by_cases hty : ty = str "string"
  · simp only [hty, if_true, true_and]
    match args with
    | [] => simp
    | [name] => simp
    | _ :: _ :: _ => simp
  · simp [hty]

theorem makePathMatcher_ok_of {ty : List UInt8} {args : List (List UInt8)}
    (hty : ty = str "string") (name : List UInt8) (hargs : args = [name]) :
    makePathMatcher ty args = .ok (.stringMatcher name) := by
  subst hty hargs
  simp [makePathMatcher, newStringMatcher]

theorem reParam_of_ne (rest : List UInt8) (h : rest.head? ≠ some 60) :
    reParam_FindStringSubmatchIndex rest = [] := by
  unfold reParam_FindStringSubmatchIndex
  cases rest with
  | nil => rfl
  | cons c tl =>
    have hc : c ≠ 60 := by simpa using h
    simp [hc]

/-- What `parsePatternMatcher` returns at an offset inside the pattern, in
terms of the placeholder recognised there. -/
theorem parsePatternMatcher_eq (pattern : List UInt8) (k : Nat) (hk : k < pattern.length) :
    parsePatternMatcher k pattern =
      match placeholderAt pattern k with
      | none => .ok (none, -1, none)
      | some (ty, args, e) =>
        match makePathMatcher ty args with
        | .error err => .ok (none, (k : Int), some err)
        | .ok M => .ok (some M, (e : Int), none) := by
  have hidx : index pattern (k : Int) = .ok pattern[k] := by simp [index, hk]
  simp only [parsePatternMatcher, hidx, placeholderAt, Int.toNat_ofNat]
  by_cases hc : pattern[k] = 60
  · simp only [hc, ne_eq, not_true_eq_false, if_false]
    rcases reParam_shape (pattern.drop k) with hm | ⟨j, hm⟩
    · simp [hm]
    · simp only [hm, List.length_cons, List.length_nil, Nat.reduceAdd, OfNat.ofNat_ne_zero,
        if_false]
      generalize strings_Split 58 (List.drop ([0, j + 3, 1, j + 2].getD 2 0)
        (List.take ([0, j + 3, 1, j + 2].getD 3 0) (List.drop k pattern))) = values
      have he : ((k : Int) + (([0, j + 3, 1, j + 2].getD 1 0 : Nat) : Int)) =
          ((k + [0, j + 3, 1, j + 2].getD 1 0 : Nat) : Int) := by push_cast; rfl
      by_cases hv : values.length = 1
      · simp only [hv, if_true, he]
      · simp only [hv, if_false, he]
  · have hre : reParam_FindStringSubmatchIndex (pattern.drop k) = [] := by
      apply reParam_of_ne
      rw [List.head?_drop, List.getElem?_eq_getElem hk]
      simpa using hc
    simp [hc, hre]

theorem placeholderAt_end (pattern : List UInt8) (k : Nat) (ty : List UInt8)
    (args : List (List UInt8)) (e : Nat) (h : placeholderAt pattern k = some (ty, args, e)) :
    k < e := by
  unfold placeholderAt at h
  rcases reParam_shape (pattern.drop k) with hm | ⟨j, hm⟩
  · simp [hm] at h
  · simp only [hm, List.length_cons, List.length_nil, Nat.reduceAdd, OfNat.ofNat_ne_zero,
      if_false] at h
    split at h
    · simp only [Option.some.injEq, Prod.mk.injEq] at h
      obtain ⟨_, _, h3⟩ := h
      simp at h3
      omega
    · simp only [Option.some.injEq, Prod.mk.injEq] at h
      obtain ⟨_, _, h3⟩ := h
      simp at h3
      omega

theorem parseExpression_at_literal {N : Type} (fuel : Nat) (p : trieNode N) (k : Nat)
    (pattern : List UInt8) (hlt : k < pattern.length) (hnone : placeholderAt pattern k = none)
    (res : Option N) :
    trieNode.parseExpression (fuel + 1) p ((k : Int) - 1) pattern res =
      match trieNode.parseExpression fuel (.mk pattern[k] [] none none)
          (((k + 1 : Nat) : Int) - 1) pattern res with
      | .error e => .error e
      | .ok node => .ok (.mk p.char [node] p.matcher p.result) := by
  have h1 : ¬ ((k : Int) - 1 ≥ (pattern.length : Int) - 1) := by omega
  have hidx : index pattern (k : Int) = .ok pattern[k] := by simp [index, hlt]
  have hpm := parsePatternMatcher_eq pattern k hlt
  rw [hnone] at hpm
  rw [trieNode.parseExpression]
  simp only [h1, if_false, sub_add_cancel, hpm, hidx, Nat.cast_add, Nat.cast_one,
    add_sub_cancel_right]

theorem parseExpression_at_placeholder {N : Type} (fuel : Nat) (p : trieNode N) (k : Nat)
    (pattern : List UInt8) (hlt : k < pattern.length) (ty : List UInt8)
    (args : List (List UInt8)) (e : Nat) (hsome : placeholderAt pattern k = some (ty, args, e))
    (M : patternMatcher) (hM : makePathMatcher ty args = .ok M) (res : Option N) :
    trieNode.parseExpression (fuel + 1) p ((k : Int) - 1) pattern res =
      match trieNode.parseExpression fuel (.mk 0 [] (some M) none) ((e : Int) - 1) pattern res with
      | .error e => .error e
      | .ok node => .ok (.mk p.char [node] p.matcher p.result) := by
  have h1 : ¬ ((k : Int) - 1 ≥ (pattern.length : Int) - 1) := by omega
  have hpm := parsePatternMatcher_eq pattern k hlt
  rw [hsome] at hpm
  simp only [hM] at hpm
  rw [trieNode.parseExpression]
  simp only [h1, if_false, sub_add_cancel, hpm]

theorem makePathMatcher_error_kind (ty : List UInt8) (args : List (List UInt8)) (err : error)
    (h : makePathMatcher ty args = .error err) :
    (ty ≠ str "string" ∧ err = .unsupportedMatcher ty) ∨
      (ty = str "string" ∧ args.length ≠ 1 ∧ err = .expectedOneParameter args) := by
  unfold makePathMatcher at h
  by_cases hty : ty = str "string"
  · simp only [hty, if_true] at h
    unfold newStringMatcher at h
    right
    refine ⟨hty, ?_⟩
    match args, h with
    | [], h =>
      simp only [Except.error.injEq] at h
      exact ⟨by simp, h.symm⟩
    | [name], h => simp at h
    | _ :: _ :: _, h =>
      simp only [Except.error.injEq] at h
      exact ⟨by simp, h.symm⟩
  · simp only [hty, if_false, Except.error.injEq] at h
    exact Or.inl ⟨hty, h.symm⟩

theorem makePathMatcher_of_kind (ty : List UInt8) (args : List (List UInt8)) (err : error)
    (h : (ty ≠ str "string" ∧ err = .unsupportedMatcher ty) ∨
      (ty = str "string" ∧ args.length ≠ 1 ∧ err = .expectedOneParameter args)) :
    makePathMatcher ty args = .error err := by
  rcases h with ⟨hty, rfl⟩ | ⟨hty, hlen, rfl⟩
  · simp [makePathMatcher, hty]
  · subst hty
    simp only [makePathMatcher, if_true]
    unfold newStringMatcher
    match args, hlen with
    | [], _ => rfl
    | [name], hlen => simp at hlen
    | _ :: _ :: _, _ => rfl

theorem parseExpression_at_bad_placeholder {N : Type} (fuel : Nat) (p : trieNode N) (k : Nat)
    (pattern : List UInt8) (hlt : k < pattern.length) (ty : List UInt8)
    (args : List (List UInt8)) (e : Nat) (hsome : placeholderAt pattern k = some (ty, args, e))
    (err : error) (hbad : makePathMatcher ty args = .error err) (res : Option N) :
    trieNode.parseExpression (fuel + 1) p ((k : Int) - 1) pattern res = .error err := by
  have h1 : ¬ ((k : Int) - 1 ≥ (pattern.length : Int) - 1) := by omega
  have hpm := parsePatternMatcher_eq pattern k hlt
  rw [hsome] at hpm
  simp only [hbad] at hpm
  rw [trieNode.parseExpression]
  simp only [h1, if_false, sub_add_cancel, hpm]

/-- An error of `parseExpression` is the error that `makePathMatcher` returns
for a placeholder recognised at an offset that the scan reaches. -/
theorem parse_error_bad {N : Type} (pattern : List UInt8) (res : Option N) :
    ∀ (fuel k : Nat) (p : trieNode N) (err : error), scanReaches pattern k →
      pattern.length - k < fuel →
      trieNode.parseExpression fuel p ((k : Int) - 1) pattern res = .error err →
      ∃ k1 ty args e, scanReaches pattern k1 ∧ k1 < pattern.length ∧
        placeholderAt pattern k1 = some (ty, args, e) ∧
        makePathMatcher ty args = .error err := by
  intro fuel
  induction fuel with
  | zero => intro k p err _ h; omega
  | succ fuel ih =>
    intro k p err hs hf h
    by_cases hlt : k < pattern.length
    · rcases hpl : placeholderAt pattern k with _ | ⟨ty, args, e⟩
      · rw [parseExpression_at_literal fuel p k pattern hlt hpl res] at h
        rcases hr : trieNode.parseExpression fuel (trieNode.mk pattern[k] [] none none)
          (((k + 1 : Nat) : Int) - 1) pattern res with e2 | node
        · rw [hr] at h
          simp only [Except.error.injEq] at h
          subst h
          exact ih (k + 1) _ e2 (scanReaches.literal k hs hlt hpl) (by omega) hr
        · rw [hr] at h
          simp at h
      · rcases hmk : makePathMatcher ty args with e1 | M
        · have := parseExpression_at_bad_placeholder fuel p k pattern hlt ty args e hpl e1 hmk res
          rw [this] at h
          simp only [Except.error.injEq] at h
          subst h
          exact ⟨k, ty, args, e, hs, hlt, hpl, hmk⟩
        · have hgood := (makePathMatcher_ok_iff ty args).mp ⟨M, hmk⟩
          rw [parseExpression_at_placeholder fuel p k pattern hlt ty args e hpl M hmk res] at h
          have hke := placeholderAt_end pattern k ty args e hpl
          rcases hr : trieNode.parseExpression fuel (trieNode.mk 0 [] (some M) none)
            ((e : Int) - 1) pattern res with e2 | node
          · rw [hr] at h
            simp only [Except.error.injEq] at h
            subst h
            exact ih e _ e2 (scanReaches.placeholder k ty args e hs hlt hpl hgood.1 hgood.2)
              (by omega) hr
          · rw [hr] at h
            simp at h
    · rw [parseExpression_leaf fuel p k pattern (by omega) res] at h
      simp at h

/-- An error at an offset that the scan reaches is the error of the whole
parse. -/
theorem bad_parse_error {N : Type} (pattern : List UInt8) (res : Option N) (err : error)
    (k : Nat) (hs : scanReaches pattern k) :
    (∀ (fuel : Nat) (p : trieNode N), pattern.length - k < fuel →
      trieNode.parseExpression fuel p ((k : Int) - 1) pattern res = .error err) →
    ∀ (fuel : Nat) (p : trieNode N), pattern.length - 0 < fuel →
      trieNode.parseExpression fuel p (((0 : Nat) : Int) - 1) pattern res = .error err := by
  induction hs with
  | start => exact id
  | literal k _ hlt hpl ih =>
    intro h
    apply ih
    intro fuel p hf
    cases fuel with
    | zero => omega
    | succ fuel =>
      rw [parseExpression_at_literal fuel p k pattern hlt hpl res]
      rw [h fuel (trieNode.mk pattern[k] [] none none) (by omega)]
  | placeholder k ty args e _ hlt hpl hty hargs ih =>
    intro h
    apply ih
    intro fuel p hf
    cases fuel with
    | zero => omega
    | succ fuel =>
      obtain ⟨M, hM⟩ := (makePathMatcher_ok_iff ty args).mpr ⟨hty, hargs⟩
      rw [parseExpression_at_placeholder fuel p k pattern hlt ty args e hpl M hM res]
      have hke := placeholderAt_end pattern k ty args e hpl
      rw [h fuel (trieNode.mk 0 [] (some M) none) (by omega)]

/-- The errors of `parseTrie`, one by one: the error `Empty pattern` for the
empty pattern, and otherwise the error of `makePathMatcher` for a placeholder
recognised at an offset that the scan reaches. -/
theorem parseTrie_error_iff {N : Type} (pattern : List UInt8) (D : Option N) (err : error) :
    parseTrie pattern D = .error err ↔
      (pattern = [] ∧ err = .emptyPattern) ∨
      ∃ k ty args e, scanReaches pattern k ∧ k < pattern.length ∧
        placeholderAt pattern k = some (ty, args, e) ∧
        ((ty ≠ str "string" ∧ err = .unsupportedMatcher ty) ∨
          (ty = str "string" ∧ args.length ≠ 1 ∧ err = .expectedOneParameter args)) := by
  constructor
  · intro h
    by_cases hne : pattern = []
    · left
      subst hne
      simp only [parseTrie, List.length_nil, if_true, Except.error.injEq] at h
      exact ⟨rfl, h.symm⟩
    · right
      have hl : pattern.length ≠ 0 := by simpa using hne
      unfold parseTrie at h
      simp only [hl, if_false] at h
      rcases hr : trieNode.parseExpression (pattern.length + 1) (trieNode.mk 0 [] none none)
        (-1) pattern D with e2 | node
      · rw [hr] at h
        simp only [Except.error.injEq] at h
        subst h
        have hr0 : trieNode.parseExpression (pattern.length + 1)
            (trieNode.mk 0 [] none none) (((0 : Nat) : Int) - 1) pattern D = .error e2 := by
          simpa using hr
        obtain ⟨k, ty, args, e, h1, h2, h3, h4⟩ :=
          parse_error_bad pattern D _ 0 _ e2 scanReaches.start (by omega) hr0
        exact ⟨k, ty, args, e, h1, h2, h3, makePathMatcher_error_kind ty args e2 h4⟩
      · rw [hr] at h
        simp at h
  · rintro (⟨hnil, rfl⟩ | ⟨k, ty, args, e, h1, h2, h3, h4⟩)
    · simp [parseTrie, hnil]
    · have hl : pattern.length ≠ 0 := by omega
      have hmk := makePathMatcher_of_kind ty args err h4
      have hat : ∀ (fuel : Nat) (p : trieNode N), pattern.length - k < fuel →
          trieNode.parseExpression fuel p ((k : Int) - 1) pattern D = .error err := by
        intro fuel p hf
        cases fuel with
        | zero => omega
        | succ fuel =>
          exact parseExpression_at_bad_placeholder fuel p k pattern h2 ty args e h3 err hmk D
      have herr := bad_parse_error pattern D err k h1 hat (pattern.length + 1)
        (trieNode.mk 0 [] none none) (by omega)
      have herr0 : trieNode.parseExpression (pattern.length + 1)
          (trieNode.mk 0 [] none none) (-1) pattern D = .error err := by simpa using herr
      simp [parseTrie, hl, herr0]

theorem strings_Split_of_not_mem (sep : UInt8) :
    ∀ s : List UInt8, sep ∉ s → strings_Split sep s = [s] := by
  intro s
  induction s with
  | nil => intro _; rfl
  | cons c cs ih =>
    intro h
    have hc : c ≠ sep := fun hc => h (by simp [hc])
    have hcs : sep ∉ cs := fun hm => h (List.mem_cons_of_mem _ hm)
    simp [strings_Split, hc, ih hcs]

theorem strings_Split_append_sep (sep : UInt8) (b : List UInt8) :
    ∀ a : List UInt8, sep ∉ a →
      strings_Split sep (a ++ sep :: b) = a :: strings_Split sep b := by
  intro a
  induction a with
  | nil => intro _; simp [strings_Split]
  | cons c cs ih =>
    intro h
    have hc : c ≠ sep := fun hc => h (by simp [hc])
    have hcs : sep ∉ cs := fun hm => h (List.mem_cons_of_mem _ hm)
    simp [strings_Split, hc, ih hcs]

theorem lastIndexOf_of_not_mem (c : UInt8) :
    ∀ q : List UInt8, c ∉ q → lastIndexOf c q = none := by
  intro q
  induction q with
  | nil => intro _; rfl
  | cons x xs ih =>
    intro h
    have hx : x ≠ c := fun hx => h (by simp [hx])
    have hxs : c ∉ xs := fun hm => h (List.mem_cons_of_mem _ hm)
    simp [lastIndexOf, ih hxs, hx]

theorem lastIndexOf_append (c : UInt8) (q : List UInt8) (hq : c ∉ q) :
    ∀ g : List UInt8, lastIndexOf c (g ++ c :: q) = some g.length := by
  intro g
  induction g with
  | nil => simp [lastIndexOf, lastIndexOf_of_not_mem c q hq]
  | cons x xs ih => simp [lastIndexOf, ih]

theorem takeWhile_segment (g post : List UInt8) (hg : (47 : UInt8) ∉ g) :
    (g ++ 62 :: post).takeWhile (fun b => b ≠ 47) =
      g ++ 62 :: post.takeWhile (fun b => b ≠ 47) := by
  induction g with
  | nil =>
    rw [List.nil_append, List.takeWhile_cons, if_pos (by decide)]
    rfl
  | cons x xs ih =>
    have hx : decide (x ≠ 47) = true := by
      have : x ≠ 47 := fun hx => hg (by simp [hx])
      simpa using this
    have hxs : (47 : UInt8) ∉ xs := fun hm => hg (List.mem_cons_of_mem _ hm)
    rw [List.cons_append, List.takeWhile_cons, if_pos hx, ih hxs]
    rfl

theorem reParam_segment (g post : List UInt8) (hne : g ≠ []) (hg : (47 : UInt8) ∉ g)
    (hpost : (62 : UInt8) ∉ post) :
    reParam_FindStringSubmatchIndex (60 :: (g ++ 62 :: post)) =
      [0, g.length + 2, 1, g.length + 1] := by
  have htk := takeWhile_segment g post hg
  obtain ⟨g0, gt, rfl⟩ := List.exists_cons_of_ne_nil hne
  have htw : (62 : UInt8) ∉ post.takeWhile (fun b => b ≠ 47) :=
    fun h => hpost ((List.takeWhile_sublist _).subset h)
  have hl := lastIndexOf_append 62 _ htw gt
  unfold reParam_FindStringSubmatchIndex
  dsimp only
  rw [if_neg (by simp), htk]
  simp only [List.cons_append, hl, List.length_cons]

theorem placeholderAt_segment (pattern : List UInt8) (k : Nat) (g post : List UInt8)
    (hdrop : pattern.drop k = 60 :: (g ++ 62 :: post)) (hne : g ≠ [])
    (hg : (47 : UInt8) ∉ g) (hpost : (62 : UInt8) ∉ post) :
    placeholderAt pattern k =
      if (strings_Split 58 g).length = 1 then
        some (str "string", strings_Split 58 g, k + (g.length + 2))
      else some ((strings_Split 58 g).headD [], (strings_Split 58 g).tail, k + (g.length + 2)) := by
  unfold placeholderAt
  have hgrp : List.drop 1 (List.take (g.length + 1) (60 :: (g ++ 62 :: post))) = g := by
    simp
  simp only [hdrop, reParam_segment g post hne hg hpost, List.length_cons, List.length_nil,
    Nat.reduceAdd, OfNat.ofNat_ne_zero, if_false, List.getD_cons_succ, List.getD_cons_zero, hgrp]

theorem placeholderAt_of_ne (pattern : List UInt8) (k : Nat) (hk : k < pattern.length)
    (hc : pattern[k] ≠ 60) : placeholderAt pattern k = none := by
  have hre : reParam_FindStringSubmatchIndex (pattern.drop k) = [] := by
    apply reParam_of_ne
    rw [List.head?_drop, List.getElem?_eq_getElem hk]
    simpa using hc
  simp [placeholderAt, hre]

theorem drop_cons_getElem (pattern : List UInt8) (k : Nat) (c : UInt8) (cs : List UInt8)
    (h : pattern.drop k = c :: cs) :
    ∃ hk : k < pattern.length, pattern[k] = c ∧ pattern.drop (k + 1) = cs := by
  have hk : k < pattern.length := by
    by_contra hge
    rw [List.drop_eq_nil_of_le (by omega)] at h
    simp at h
  rw [List.drop_eq_getElem_cons hk] at h
  simp only [List.cons.injEq] at h
  exact ⟨hk, h.1, h.2⟩

/-- Parsing a literal rest of the pattern. -/
theorem parseExpression_suffix {N : Type} (pattern : List UInt8) (res : Option N) :
    ∀ (w : List UInt8) (k : Nat) (ch : UInt8) (m : Option patternMatcher) (fuel : Nat),
      pattern.drop k = w → (60 : UInt8) ∉ w → w.length < fuel →
      trieNode.parseExpression fuel (.mk ch [] m none) ((k : Int) - 1) pattern res =
        .ok (keyChain res ch m (w.map (fun c => (c, none)))) := by
  intro w
  induction w with
  | nil =>
    intro k ch m fuel hdrop _ hf
    have hge : pattern.length ≤ k := by
      by_contra hlt
      have := congrArg List.length hdrop
      simp at this
      omega
    obtain ⟨f, rfl⟩ : ∃ f, fuel = f + 1 := ⟨fuel - 1, by omega⟩
    rw [parseExpression_leaf f _ k pattern hge res]
    simp [keyChain]
  | cons c cs ih =>
    intro k ch m fuel hdrop h60 hf
    obtain ⟨hk, hc, hrest⟩ := drop_cons_getElem pattern k c cs hdrop
    have hc60 : pattern[k] ≠ 60 := by
      rw [hc]
      exact fun h => h60 (by simp [h])
    obtain ⟨f, rfl⟩ : ∃ f, fuel = f + 1 := ⟨fuel - 1, by simp at hf; omega⟩
    rw [parseExpression_at_literal f _ k pattern hk (placeholderAt_of_ne pattern k hk hc60) res]
    rw [ih (k + 1) pattern[k] none f hrest (fun h => h60 (List.mem_cons_of_mem _ h))
      (by simp at hf; omega)]
    simp [keyChain, hc]

/-- Parsing a literal stretch of the pattern that is followed by more. -/
theorem parseExpression_stretch {N : Type} (pattern : List UInt8) (res : Option N)
    (tl : List UInt8) (ks : List (UInt8 × Option patternMatcher)) (F : Nat) :
    ∀ (w : List UInt8) (k : Nat) (ch : UInt8) (m : Option patternMatcher) (fuel : Nat),
      pattern.drop k = w ++ tl → (60 : UInt8) ∉ w → F + w.length ≤ fuel →
      (∀ (f : Nat) (ch1 : UInt8) (m1 : Option patternMatcher), F ≤ f →
        trieNode.parseExpression f (.mk ch1 [] m1 none) (((k + w.length : Nat) : Int) - 1)
          pattern res = .ok (keyChain res ch1 m1 ks)) →
      trieNode.parseExpression fuel (.mk ch [] m none) ((k : Int) - 1) pattern res =
        .ok (keyChain res ch m (w.map (fun c => (c, none)) ++ ks)) := by
  intro w
  induction w with
  | nil =>
    intro k ch m fuel _ _ hf hrest
    simpa using hrest fuel ch m (by simpa using hf)
  | cons c cs ih =>
    intro k ch m fuel hdrop h60 hf hrest
    obtain ⟨hk, hc, hdrop2⟩ := drop_cons_getElem pattern k c (cs ++ tl) hdrop
    have hc60 : pattern[k] ≠ 60 := by
      rw [hc]
      exact fun h => h60 (by simp [h])
    obtain ⟨f, rfl⟩ : ∃ f, fuel = f + 1 := ⟨fuel - 1, by simp at hf; omega⟩
    rw [parseExpression_at_literal f _ k pattern hk (placeholderAt_of_ne pattern k hk hc60) res]
    have hrest2 : ∀ (f : Nat) (ch1 : UInt8) (m1 : Option patternMatcher), F ≤ f →
        trieNode.parseExpression f (.mk ch1 [] m1 none)
          (((k + 1 + cs.length : Nat) : Int) - 1) pattern res = .ok (keyChain res ch1 m1 ks) := by
      intro f2 ch1 m1 hf2
      have := hrest f2 ch1 m1 hf2
      simpa [Nat.add_assoc, Nat.add_comm 1] using this
    rw [ih (k + 1) pattern[k] none f hdrop2 (fun h => h60 (List.mem_cons_of_mem _ h))
      (by simp at hf; omega) hrest2]
    simp [keyChain, hc]

/-- Parsing a pattern with one placeholder between two literal parts. -/
theorem parseTrie_one_placeholder {N : Type} (pre g post : List UInt8) (D : Option N)
    (name : List UInt8) (hpre : (60 : UInt8) ∉ pre) (hne : g ≠ []) (hg : (47 : UInt8) ∉ g)
    (hpost60 : (60 : UInt8) ∉ post) (hpost62 : (62 : UInt8) ∉ post)
    (hvalues : (if (strings_Split 58 g).length = 1 then (str "string", strings_Split 58 g)
      else ((strings_Split 58 g).headD [], (strings_Split 58 g).tail)) = (str "string", [name])) :
    parseTrie (pre ++ 60 :: (g ++ 62 :: post)) D =
      .ok ⟨some (keyChain D 0 none (pre.map (fun c => (c, none)) ++
        (0, some (.stringMatcher name)) :: post.map (fun c => (c, none))))⟩ := by
  set pattern := pre ++ 60 :: (g ++ 62 :: post) with hpat
  have hlen : pattern.length = pre.length + (g.length + 2 + post.length) := by
    simp [hpat]
    omega
  have hl : pattern.length ≠ 0 := by omega
  have hdrop : pattern.drop pre.length = 60 :: (g ++ 62 :: post) := by
    simp [hpat]
  have hk : pre.length < pattern.length := by omega
  have hpl : placeholderAt pattern pre.length =
      some (str "string", [name], pre.length + (g.length + 2)) := by
    rw [placeholderAt_segment pattern pre.length g post hdrop hne hg hpost62]
    split
    · rename_i h1
      simp only [h1, if_true, Prod.mk.injEq] at hvalues
      rw [hvalues.2]
    · rename_i h1
      simp only [h1, if_false, Prod.mk.injEq] at hvalues
      rw [hvalues.1, hvalues.2]
  have hdrop2 : pattern.drop (pre.length + (g.length + 2)) = post := by
    have : pattern = (pre ++ 60 :: (g ++ [62])) ++ post := by simp [hpat]
    rw [this]
    apply List.drop_left'
    simp
  have hmid : ∀ (f : Nat) (ch1 : UInt8) (m1 : Option patternMatcher), post.length + 2 ≤ f →
      trieNode.parseExpression f (.mk ch1 [] m1 none) ((pre.length : Int) - 1)
        pattern D = .ok (keyChain D ch1 m1
          ((0, some (.stringMatcher name)) :: post.map (fun c => (c, none)))) := by
    intro f ch1 m1 hf
    obtain ⟨f1, rfl⟩ : ∃ f1, f = f1 + 1 := ⟨f - 1, by omega⟩
    rw [parseExpression_at_placeholder f1 _ pre.length pattern hk _ _ _ hpl
      (.stringMatcher name) (makePathMatcher_ok_of rfl name rfl) D]
    rw [parseExpression_suffix pattern D post _ 0 _ f1 hdrop2 hpost60 (by omega)]
    simp [keyChain]
  have hall := parseExpression_stretch pattern D (60 :: (g ++ 62 :: post))
    ((0, some (.stringMatcher name)) :: post.map (fun c => (c, none))) (post.length + 2)
    pre 0 0 none (pattern.length + 1) (by simp [hpat]) hpre (by omega)
    (by simpa using hmid)
  simp only [Nat.cast_zero, zero_sub] at hall
  simp only [parseTrie, hl, if_false, hall]

/-- The placeholder recognised in some small patterns. -/
theorem placeholderAt_examples :
    placeholderAt (str "/<id>") 0 = none ∧
      placeholderAt (str "/<id>") 1 = some (str "string", [str "id"], 5) ∧
      placeholderAt (str "<a:b>") 0 = some (str "a", [str "b"], 5) ∧
      placeholderAt (str "<string:a:b>/") 0 = some (str "string", [str "a", str "b"], 12) := by
  decide

/-- The three errors of `parseTrie` on small patterns. -/
theorem parseTrie_error_examples :
    (parseTrie [] (some 1) : Except error (trie Nat)) = .error .emptyPattern ∧
      (parseTrie (str "/<a:b>") (some 1) : Except error (trie Nat)) =
        .error (.unsupportedMatcher (str "a")) ∧
      (parseTrie (str "<string:a:b>") (some 1) : Except error (trie Nat)) =
        .error (.expectedOneParameter [str "a", str "b"]) :=
  ⟨rfl, rfl, rfl⟩

/-! ## The claims -/

/-- C1: for every non-empty pattern `P` in which no placeholder is recognised
(in particular every non-empty `P` without the byte `<`, which is 60) and every
non-nil destination `D`, `parseTrie(P, D)` succeeds and matching the resulting
trie against the path `P` returns what `D` yields. -/
theorem C1_parse_then_match_literal {N L : Type} (rm : N → Option L) (P : List UInt8) (D : N)
    (hne : P ≠ []) (hp : noPlaceholder P ∨ (60 : UInt8) ∉ P) :
    ∃ t : trie N, parseTrie P (some D) = .ok t ∧ t.match_ rm P = .ok (rm D) := by
  have hlit : noPlaceholder P := hp.elim id (noPlaceholder_of_not_mem P)
  refine ⟨_, parseTrie_literal P (some D) hne hlit, ?_⟩
  rw [trie_match_nonempty rm _ P hne]
  exact match_litChain_root rm D P hne none 0

/-- Witness of C1 at the pattern `/a<b`, which has a `<` but no placeholder. -/
theorem C1_parse_then_match_literal_witness :
    str "/a<b" ≠ [] ∧ (noPlaceholder (str "/a<b") ∨ (60 : UInt8) ∉ str "/a<b") ∧
      ∃ t : trie Nat, parseTrie (str "/a<b") (some 7) = .ok t ∧
        t.match_ some (str "/a<b") = .ok (some 7) :=
  ⟨by decide, Or.inl (by decide),
    C1_parse_then_match_literal some (str "/a<b") 7 (by decide) (Or.inl (by decide))⟩

/-- C2 (the code at the failing input): the trie of `/users/<id>` does not match
the path `/users/42`.  The walk compares the byte `4` with the key of the
matcher node, which is 0, and never calls the matcher. -/
theorem C2_matcher_node_compares_key {N L : Type} (rm : N → Option L) (D : N) :
    ∃ t : trie N, parseTrie (str "/users/<id>") (some D) = .ok t ∧
      t.match_ rm (str "/users/42") = .ok none :=
  ⟨_, rfl, rfl⟩

/-- C3 (the code at the failing input): folding the tries of `/a`, `/ab`, `/ac`
left to right succeeds, but the resulting trie no longer matches `/ab`:
`mergeWithLeaf` keeps the children of the non-leaf operand only, and the node
for `a`, already a leaf with the child `b`, loses that child. -/
theorem C3_fold_loses_route {N L : Type} (rm : N → Option L) (D1 D2 D3 : N) :
    ∃ t1 t2 t3 t12 t : trie N,
      parseTrie (str "/a") (some D1) = .ok t1 ∧ parseTrie (str "/ab") (some D2) = .ok t2 ∧
      parseTrie (str "/ac") (some D3) = .ok t3 ∧
      t1.merge t2 = .ok t12 ∧ t12.merge t3 = .ok t ∧
      t12.match_ rm (str "/ab") = .ok (rm D2) ∧ t.match_ rm (str "/ab") = .ok none :=
  ⟨_, _, _, _, _, rfl, rfl, rfl, rfl, rfl, match_forked_long_root rm D1 98 [] D2 [47, 97]
    (by decide) none 0, rfl⟩

/-- C4: for literal patterns `P` and `Q`, `P` non-empty and a strict prefix of
`Q`, and non-nil destinations `D1`, `D2`: merging `parseTrie(P, D1)` with
`parseTrie(Q, D2)` succeeds in either operand order, and the merged trie
matches the path `P` to `D1` and the path `Q` to `D2`. -/
theorem C4_merge_strict_prefix {N L : Type} (rm : N → Option L) (P Q : List UInt8)
    (D1 D2 : N) (hne : P ≠ []) (hpre : P <+: Q) (hPQ : P ≠ Q)
    (hP : noPlaceholder P) (hQ : noPlaceholder Q) :
    ∃ tP tQ t12 t21 : trie N,
      parseTrie P (some D1) = .ok tP ∧ parseTrie Q (some D2) = .ok tQ ∧
      tP.merge tQ = .ok t12 ∧ tQ.merge tP = .ok t21 ∧
      t12.match_ rm P = .ok (rm D1) ∧ t12.match_ rm Q = .ok (rm D2) ∧
      t21.match_ rm P = .ok (rm D1) ∧ t21.match_ rm Q = .ok (rm D2) := by
  obtain ⟨R, hR⟩ := hpre
  cases R with
  | nil => simp at hR; exact absurd hR hPQ
  | cons r R =>
    subst hR
    have hQne : P ++ r :: R ≠ [] := by simp
    refine ⟨_, _, ⟨some (forked D1 r R D2 0 none P)⟩, ⟨some (forked D1 r R D2 0 none P)⟩,
      parseTrie_literal P (some D1) hne hP, parseTrie_literal _ (some D2) hQne hQ, ?_, ?_,
      ?_, ?_, ?_, ?_⟩
    · simp [trie.merge, merge_prefix_left]
    · simp [trie.merge, merge_prefix_right]
    · rw [trie_match_nonempty rm _ P hne]
      exact match_forked_short_root rm D1 r R D2 P hne none 0
    · rw [trie_match_nonempty rm _ _ hQne]
      exact match_forked_long_root rm D1 r R D2 P hne none 0
    · rw [trie_match_nonempty rm _ P hne]
      exact match_forked_short_root rm D1 r R D2 P hne none 0
    · rw [trie_match_nonempty rm _ _ hQne]
      exact match_forked_long_root rm D1 r R D2 P hne none 0

/-- Witness of C4 at `P = /a`, `Q = /ab`. -/
theorem C4_merge_strict_prefix_witness :
    str "/a" ≠ [] ∧ str "/a" <+: str "/ab" ∧ str "/a" ≠ str "/ab" ∧
      noPlaceholder (str "/a") ∧ noPlaceholder (str "/ab") ∧
      ∃ tP tQ t12 t21 : trie Nat,
        parseTrie (str "/a") (some 1) = .ok tP ∧ parseTrie (str "/ab") (some 2) = .ok tQ ∧
        tP.merge tQ = .ok t12 ∧ tQ.merge tP = .ok t21 ∧
        t12.match_ some (str "/a") = .ok (some 1) ∧ t12.match_ some (str "/ab") = .ok (some 2) ∧
        t21.match_ some (str "/a") = .ok (some 1) ∧ t21.match_ some (str "/ab") = .ok (some 2) :=
  ⟨by decide, by decide, by decide, by decide, by decide,
    C4_merge_strict_prefix some (str "/a") (str "/ab") 1 2 (by decide) (by decide) (by decide)
      (by decide) (by decide)⟩

/-- C5 (the code at the failing input): matching the trie of `/ab` against its
strict prefix `/a` does not return absent; the walk reaches the node `b` with
offset 2 and evaluates `path[2]` on a path of length 2, which panics. -/
theorem C5_strict_prefix_path_panics {N L : Type} (rm : N → Option L) (D : N) :
    ∃ t : trie N, parseTrie (str "/ab") (some D) = .ok t ∧
      t.match_ rm (str "/a") = .error .panicIndexOutOfRange :=
  ⟨_, rfl, rfl⟩

/-- C6 (the code at the failing input): on the trie merged from `/a` and `/abc`,
matching the path `/ab` reads `path[3]` on a path of length 3 and stops with an
index-out-of-range panic instead of a destination or the absent result. -/
theorem C6_match_reads_out_of_range {N L : Type} (rm : N → Option L) (D1 D2 : N) :
    ∃ t1 t2 t : trie N,
      parseTrie (str "/a") (some D1) = .ok t1 ∧ parseTrie (str "/abc") (some D2) = .ok t2 ∧
      t1.merge t2 = .ok t ∧ t.match_ rm (str "/ab") = .error .panicIndexOutOfRange :=
  ⟨_, _, _, rfl, rfl, rfl, rfl⟩

/-- C7: for every non-empty literal pattern `P` with destination `D` and every
path that is `P` followed by at least one more byte, matching the trie
`parseTrie(P, D)` against that path returns absent. -/
theorem C7_strict_extension_absent {N L : Type} (rm : N → Option L) (P R : List UInt8)
    (D : N) (hne : P ≠ []) (hR : R ≠ []) (hP : noPlaceholder P) :
    ∃ t : trie N, parseTrie P (some D) = .ok t ∧ t.match_ rm (P ++ R) = .ok none := by
  refine ⟨_, parseTrie_literal P (some D) hne hP, ?_⟩
  rw [trie_match_nonempty rm _ _ (by simp [hne])]
  exact match_litChain_extension_root rm D P R hne hR none 0

/-- Witness of C7 at the pattern `/ab` and the path `/abc`. -/
theorem C7_strict_extension_absent_witness :
    str "/ab" ≠ [] ∧ str "c" ≠ [] ∧ noPlaceholder (str "/ab") ∧
      ∃ t : trie Nat, parseTrie (str "/ab") (some 5) = .ok t ∧
        t.match_ some (str "/ab" ++ str "c") = .ok none :=
  ⟨by decide, by decide, by decide,
    C7_strict_extension_absent some (str "/ab") (str "c") 5 (by decide) (by decide)
      (by decide)⟩

/-- C8: a payload is returned only on full consumption of the path.  For a trie
built by successful merges from the tries of the literal patterns of `l`, and a
non-empty path `p`: if `trie.match` returns a location, then `p` is one of the
registered patterns and the location is the one its destination yields. -/
theorem C8_payload_only_on_full_consumption {N L : Type} (rm : N → Option L) (t : trie N)
    (l : List (List UInt8 × N)) (hb : builtFrom t l) (p : List UInt8) (hp : p ≠ []) (loc : L)
    (h : t.match_ rm p = .ok (some loc)) :
    ∃ P D, (P, D) ∈ l ∧ p = P ∧ rm D = some loc := by
  obtain ⟨d, hd, hrm⟩ := trie_match_sound rm t p hp loc h
  exact ⟨p, d, builtFrom_routes t l hb p d hd, rfl, hrm⟩

/-- Witness of C8: the trie merged from `/a` and `/ab` returns the destination
of `/ab` for the path `/ab`, a registered pattern. -/
theorem C8_payload_only_on_full_consumption_witness :
    ∃ t : trie Nat, builtFrom t [(str "/a", 1), (str "/ab", 2)] ∧ str "/ab" ≠ [] ∧
      t.match_ some (str "/ab") = .ok (some 2) ∧
      ∃ P D, (P, D) ∈ [(str "/a", 1), (str "/ab", 2)] ∧ str "/ab" = P ∧ some D = some 2 :=
  have hb : builtFrom (⟨some (forked 1 98 [] 2 0 none [47, 97])⟩ : trie Nat)
      ([(str "/a", 1)] ++ [(str "/ab", 2)]) :=
    builtFrom.merge _ _ _ _ _ (builtFrom.parse (str "/a") 1 _ (by decide) rfl)
      (builtFrom.parse (str "/ab") 2 _ (by decide) rfl) rfl
  ⟨_, hb, by decide, rfl,
    C8_payload_only_on_full_consumption some _ _ hb (str "/ab") (by decide) 2 rfl⟩

/-- C9: for every pattern `P` that parses successfully (placeholders included)
and all non-nil destinations `D1`, `D2`, equal or not: `parseTrie(P, D2)`
succeeds as well, and merging the two tries, in either order, fails with the
two-leaf-nodes error and produces no trie. -/
theorem C9_merge_same_pattern_fails {N : Type} (P : List UInt8) (D1 D2 : N) (t1 : trie N)
    (h1 : parseTrie P (some D1) = .ok t1) :
    ∃ t2 : trie N, parseTrie P (some D2) = .ok t2 ∧
      t1.merge t2 = .error .twoLeafNodes ∧ t2.merge t1 = .error .twoLeafNodes := by
  unfold parseTrie at h1 ⊢
  by_cases hl : P.length = 0
  · simp [hl] at h1
  simp only [hl, if_false] at h1 ⊢
  rcases hr1 : trieNode.parseExpression (P.length + 1) (trieNode.mk 0 [] none none) (-1) P
    (some D1) with e | n1
  · simp [hr1] at h1
  simp only [hr1, Except.ok.injEq] at h1
  subst h1
  have hr1k : trieNode.parseExpression (P.length + 1) (trieNode.mk 0 [] none none)
      (((0 : Nat) : Int) - 1) P (some D1) = .ok n1 := by simpa using hr1
  obtain ⟨n2, hr2k⟩ := parseExpression_ok_indep P (some D1) (some D2) _ 0 _ n1 hr1k
  have hr2 : trieNode.parseExpression (P.length + 1) (trieNode.mk 0 [] none none) (-1) P
      (some D2) = .ok n2 := by simpa using hr2k
  refine ⟨⟨some n2⟩, by rw [hr2], ?_, ?_⟩
  · have := merge_same_pattern P D1 D2 _ 0 (trieNode.mk 0 [] none none) n1 n2 rfl hr1k hr2k
    simp [trie.merge, this]
  · have := merge_same_pattern P D2 D1 _ 0 (trieNode.mk 0 [] none none) n2 n1 rfl hr2k hr1k
    simp [trie.merge, this]

/-- Witness of C9 at the pattern `/users/<id>`. -/
theorem C9_merge_same_pattern_fails_witness :
    ∃ t1 : trie Nat, parseTrie (str "/users/<id>") (some 1) = .ok t1 ∧
      ∃ t2 : trie Nat, parseTrie (str "/users/<id>") (some 2) = .ok t2 ∧
        t1.merge t2 = .error .twoLeafNodes ∧ t2.merge t1 = .error .twoLeafNodes :=
  ⟨_, rfl, C9_merge_same_pattern_fails (str "/users/<id>") 1 2 _ rfl⟩

/-- C10 (the code at the failing input): `A`, merged from `/a` and `/ab`, and
`B`, the trie of `/ab` with another destination, both match the path `/ab`;
yet merging `A` and `B` succeeds, and the result silently resolves `/ab` to the
destination of `B`. -/
theorem C10_duplicate_route_merges_silently {N L : Type} (rm : N → Option L) (D1 D2 D3 : N) :
    ∃ t1 t2 A B t : trie N,
      parseTrie (str "/a") (some D1) = .ok t1 ∧ parseTrie (str "/ab") (some D2) = .ok t2 ∧
      t1.merge t2 = .ok A ∧ parseTrie (str "/ab") (some D3) = .ok B ∧
      A.match_ rm (str "/ab") = .ok (rm D2) ∧ B.match_ rm (str "/ab") = .ok (rm D3) ∧
      A.merge B = .ok t ∧ t.match_ rm (str "/ab") = .ok (rm D3) :=
  ⟨_, _, _, _, ⟨some (forked D1 98 [] D3 0 none [47, 97])⟩, rfl, rfl, rfl, rfl,
    match_forked_long_root rm D1 98 [] D2 [47, 97] (by decide) none 0,
    match_litChain_root rm D3 [47, 97, 98] (by decide) none 0, rfl,
    match_forked_long_root rm D1 98 [] D3 [47, 97] (by decide) none 0⟩

/-- C11 (the code at the failing input): `A`, merged from `<x>` and `<y>`, has
the matcher children `x` and `y`; `B`, the trie of `<x>/a`, has the matcher
child `x` only.  Merging the roots succeeds and the result has the single
child `x`: the child `y`, which has no equal child in `B`, is dropped, because
`merged` is keyed by `c.char` and every matcher node has the key 0. -/
theorem C11_unmatched_matcher_child_dropped {N : Type} (D1 D2 D3 : N) :
    ∃ (t1 t2 tA tB t : trie N) (A B X y : trieNode N),
      parseTrie (str "<x>") (some D1) = .ok t1 ∧ parseTrie (str "<y>") (some D2) = .ok t2 ∧
      t1.merge t2 = .ok tA ∧ parseTrie (str "<x>/a") (some D3) = .ok tB ∧
      tA.root = some A ∧ tB.root = some B ∧ A.result = none ∧ B.result = none ∧
      A.children.map trieNode.matcher =
        [some (.stringMatcher (str "x")), some (.stringMatcher (str "y"))] ∧
      B.children.map trieNode.matcher = [some (.stringMatcher (str "x"))] ∧
      y ∈ A.children ∧ y.matcher = some (.stringMatcher (str "y")) ∧
      B.children.all (fun c => !y.equals c) = true ∧
      tA.merge tB = .ok t ∧ t.root = some X ∧
      X.children.map trieNode.matcher = [some (.stringMatcher (str "x"))] :=
  ⟨_, _, _, _, _, _, _, _, .mk 0 [] (some (.stringMatcher (str "y"))) (some D2),
    rfl, rfl, rfl, rfl, rfl, rfl, rfl, rfl, rfl, rfl,
    List.mem_cons_of_mem _ (List.mem_cons_self _ _), rfl, rfl, rfl, rfl, rfl⟩

/-- C12 (as amended): for every successful merge of two non-leaf nodes `A` and
`B`, the children of the merged node are, in this order, the merges of the
equal pairs of children, taken in the order of the children of `A` (and of `B`
for one child of `A`), then children carried over from `A` in their order in
`A`, then children carried over from `B` in their order in `B`. -/
theorem C12_merged_children_first {N : Type} (A B X : trieNode N) (hA : A.isLeaf = false)
    (hB : B.isLeaf = false) (h : A.merge B = .ok X) :
    ∃ ms cA cB, X.children = ms ++ cA ++ cB ∧
      List.Forall₂ (fun p m => p.1.merge p.2 = .ok m) (equalPairs A.children B.children) ms ∧
      cA.Sublist A.children ∧ cB.Sublist B.children := by
  have hA1 : A.result = none := by simpa [trieNode.isLeaf] using hA
  have hB1 : B.result = none := by simpa [trieNode.isLeaf] using hB
  obtain ⟨ms, h1, h2, _⟩ := merge_nonleaf_spec A B X hA1 hB1 h
  exact ⟨ms, _, _, h2, h1.imp (fun _ _ hp => hp.2), List.filter_sublist _, List.filter_sublist _⟩

/-- Witness of C12 (as amended) at the roots of the trie merged from `a` and `b`
and of the trie of `bc`. -/
theorem C12_merged_children_first_witness :
    ∃ A B X : trieNode Nat, A.isLeaf = false ∧ B.isLeaf = false ∧ A.merge B = .ok X ∧
      ∃ ms cA cB, X.children = ms ++ cA ++ cB ∧
        List.Forall₂ (fun p m => p.1.merge p.2 = .ok m) (equalPairs A.children B.children) ms ∧
        cA.Sublist A.children ∧ cB.Sublist B.children :=
  ⟨.mk 0 [.mk 97 [] none (some 1), .mk 98 [] none (some 2)] none none,
    .mk 0 [.mk 98 [.mk 99 [] none (some 3)] none none] none none, _, rfl, rfl, rfl,
    C12_merged_children_first _ _ _ rfl rfl rfl⟩

/-- C12 (counterexample): `A`, the root of the trie merged from `a` and `b`, has
the children `a`, `b` in this order; `B`, the root of the trie of `bc`, has the
child `b`.  In the merged node the child that derives from `b` (its merge with
the child of `B`) comes first and the carried-over child `a` second. -/
theorem C12_order_not_preserved :
    ∃ (t1 t2 tA tB : trie Nat) (A B X a b c2 m : trieNode Nat),
      parseTrie (str "a") (some 1) = .ok t1 ∧ parseTrie (str "b") (some 2) = .ok t2 ∧
      t1.merge t2 = .ok tA ∧ parseTrie (str "bc") (some 3) = .ok tB ∧
      tA.root = some A ∧ tB.root = some B ∧ A.isLeaf = false ∧ B.isLeaf = false ∧
      A.children = [a, b] ∧ B.children = [c2] ∧ a.char = 97 ∧ b.char = 98 ∧
      b.merge c2 = .ok m ∧ A.merge B = .ok X ∧ X.children = [m, a] :=
  ⟨_, _, _, _, _, _, _, _, _, _, _, rfl, rfl, rfl, rfl, rfl, rfl, rfl, rfl, rfl, rfl, rfl, rfl,
    rfl, rfl, rfl⟩

/-- C13: in every trie obtained from results of `parseTrie` by zero or more
successful merges, no node has two children, at different positions, that are
equal under `trieNode.equals`. -/
theorem C13_no_equal_siblings {N : Type} (t : trie N) (h : obtained t) (root x : trieNode N)
    (hroot : t.root = some root) (hx : Within root x) :
    x.children.Pairwise (fun a b => a.equals b = false) :=
  obtained_noEqualSiblings t h root hroot x hx

/-- Witness of C13 at the trie merged from `/a<x>` and `/ab`, and its node `a`
with the children `<x>` and `b`. -/
theorem C13_no_equal_siblings_witness :
    ∃ (t : trie Nat) (root x : trieNode Nat), obtained t ∧ t.root = some root ∧ Within root x ∧
      x.children.map trieNode.key = [.inr (str "x"), .inl 98] ∧
      x.children.Pairwise (fun a b => a.equals b = false) :=
  have ht : obtained (⟨some (.mk 0 [.mk 47 [.mk 97
      [.mk 0 [] (some (.stringMatcher (str "x"))) (some 1), .mk 98 [] none (some 2)]
      none none] none none] none none)⟩ : trie Nat) :=
    obtained.merge _ _ _ (obtained.parse (str "/a<x>") (some 1) _ rfl)
      (obtained.parse (str "/ab") (some 2) _ rfl) rfl
  ⟨_, _, .mk 97 [.mk 0 [] (some (.stringMatcher (str "x"))) (some 1), .mk 98 [] none (some 2)]
      none none, ht, rfl,
    Within.step _ _ _ (List.mem_cons_self _ _)
      (Within.step _ _ _ (List.mem_cons_self _ _) (Within.self _)), rfl,
    C13_no_equal_siblings _ ht _ _ rfl
      (Within.step _ _ _ (List.mem_cons_self _ _)
        (Within.step _ _ _ (List.mem_cons_self _ _) (Within.self _)))⟩

/-- C14: `parseTrie(pattern, D)` returns an error if and only if the pattern is
empty, or the left-to-right scan reaches an offset at which it recognises a
placeholder whose type name is not `string`, or one of type `string` whose
number of arguments is not one; in every other case it returns a trie without
faulting.  In detail: the value under `.error` is `Empty pattern` exactly for
the empty pattern, `Unsupported matcher` exactly for a placeholder of another
type, `Expected only one parameter` exactly for a `string` placeholder with
another number of arguments; it is never a panic nor the used-up budget. -/
theorem C14_parse_error_iff {N : Type} (pattern : List UInt8) (D : Option N) :
    (∀ err, parseTrie pattern D = .error err ↔
      (pattern = [] ∧ err = .emptyPattern) ∨
      ∃ k ty args e, scanReaches pattern k ∧ k < pattern.length ∧
        placeholderAt pattern k = some (ty, args, e) ∧
        ((ty ≠ str "string" ∧ err = .unsupportedMatcher ty) ∨
          (ty = str "string" ∧ args.length ≠ 1 ∧ err = .expectedOneParameter args))) ∧
    (∀ err, parseTrie pattern D = .error err → err.returned = true) ∧
    ((∃ err, err.returned = true ∧ parseTrie pattern D = .error err) ↔
      (pattern = [] ∨ ∃ k ty args e, scanReaches pattern k ∧ k < pattern.length ∧
        placeholderAt pattern k = some (ty, args, e) ∧
        (ty ≠ str "string" ∨ (ty = str "string" ∧ args.length ≠ 1)))) ∧
    ((∃ t, parseTrie pattern D = .ok t) ↔
      ¬ (pattern = [] ∨ ∃ k ty args e, scanReaches pattern k ∧ k < pattern.length ∧
        placeholderAt pattern k = some (ty, args, e) ∧
        (ty ≠ str "string" ∨ (ty = str "string" ∧ args.length ≠ 1)))) := by
  have hret : ∀ err, parseTrie pattern D = .error err → err.returned = true := by
    intro err h
    rcases (parseTrie_error_iff pattern D err).mp h with
      ⟨_, rfl⟩ | ⟨_, _, _, _, _, _, _, ⟨_, rfl⟩ | ⟨_, _, rfl⟩⟩ <;> rfl
  have hcond : (∃ err, parseTrie pattern D = .error err) ↔
      (pattern = [] ∨ ∃ k ty args e, scanReaches pattern k ∧ k < pattern.length ∧
        placeholderAt pattern k = some (ty, args, e) ∧
        (ty ≠ str "string" ∨ (ty = str "string" ∧ args.length ≠ 1))) := by
    constructor
    · rintro ⟨err, h⟩
      rcases (parseTrie_error_iff pattern D err).mp h with
        ⟨hnil, _⟩ | ⟨k, ty, args, e, h1, h2, h3, h4⟩
      · exact Or.inl hnil
      · refine Or.inr ⟨k, ty, args, e, h1, h2, h3, ?_⟩
        rcases h4 with ⟨hty, _⟩ | ⟨hty, hlen, _⟩
        · exact Or.inl hty
        · exact Or.inr ⟨hty, hlen⟩
    · rintro (hnil | ⟨k, ty, args, e, h1, h2, h3, h4⟩)
      · exact ⟨.emptyPattern, (parseTrie_error_iff pattern D _).mpr (Or.inl ⟨hnil, rfl⟩)⟩
      · rcases h4 with hty | ⟨hty, hlen⟩
        · exact ⟨.unsupportedMatcher ty, (parseTrie_error_iff pattern D _).mpr
            (Or.inr ⟨k, ty, args, e, h1, h2, h3, Or.inl ⟨hty, rfl⟩⟩)⟩
        · exact ⟨.expectedOneParameter args, (parseTrie_error_iff pattern D _).mpr
            (Or.inr ⟨k, ty, args, e, h1, h2, h3, Or.inr ⟨hty, hlen, rfl⟩⟩)⟩
  refine ⟨parseTrie_error_iff pattern D, hret, ?_, ?_⟩
  · rw [← hcond]
    constructor
    · rintro ⟨err, _, h⟩
      exact ⟨err, h⟩
    · rintro ⟨err, h⟩
      exact ⟨err, hret err h, h⟩
  · rw [← hcond]
    rcases hr : parseTrie pattern D with err | t
    · simp
    · simp

/-- C15 (the code at the failing input): `grabValue(1, "/ab")` returns the whole
path `/ab`, not the substring `ab` that starts at the offset; and
`grabValue(3, "/ab/")`, where the capture is empty, panics in `path[3:0]`. -/
theorem C15_grabValue_value_not_bounded :
    grabValue 1 (str "/ab") = .ok (str "/ab", 4) ∧
      ((str "/ab").drop 1).takeWhile (fun b => b ≠ 47) = str "ab" ∧
      grabValue 3 (str "/ab/") = .error .panicSliceBounds ∧
      patternMatcher.match_ (.stringMatcher (str "id")) 1 (str "/ab") =
        .ok (⟨.stringMatcher (str "id"), str "/ab"⟩, 4) := by
  decide

/-- C16 (the code at the failing input): `grabValue(7, "/users/42")`, with no
`/` at or after offset 7, returns the new offset `7 + len(path) = 16`, not
`len(path) = 9`. -/
theorem C16_grabValue_offset_past_end :
    grabValue 7 (str "/users/42") = .ok (str "/users/42", 16) ∧
      (str "/users/42").length = 9 ∧ (47 : UInt8) ∉ (str "/users/42").drop 7 := by
  decide

/-- C17: for every non-empty name without `/`, `:`, `<`, `>` and all literal
strings `pre` and `post` without `<` and `>`, `parseTrie` succeeds on
`pre ++ "<name>" ++ post` and on `pre ++ "<string:name>" ++ post` and returns
the same trie: the chain of the literal bytes of `pre`, the string matcher with
that name, the literal bytes of `post`, with the destination on the last node. -/
theorem C17_placeholder_sugar {N : Type} (pre name post : List UInt8) (D : Option N)
    (hne : name ≠ []) (h47 : (47 : UInt8) ∉ name) (h58 : (58 : UInt8) ∉ name)
    (_h60 : (60 : UInt8) ∉ name) (_h62 : (62 : UInt8) ∉ name)
    (hpre : (60 : UInt8) ∉ pre ∧ (62 : UInt8) ∉ pre)
    (hpost : (60 : UInt8) ∉ post ∧ (62 : UInt8) ∉ post) :
    ∃ t : trie N,
      parseTrie (pre ++ str "<" ++ name ++ str ">" ++ post) D = .ok t ∧
      parseTrie (pre ++ str "<string:" ++ name ++ str ">" ++ post) D = .ok t ∧
      t = ⟨some (keyChain D 0 none (pre.map (fun c => (c, none)) ++
        (0, some (.stringMatcher name)) :: post.map (fun c => (c, none))))⟩ := by
  have e1 : pre ++ str "<" ++ name ++ str ">" ++ post = pre ++ 60 :: (name ++ 62 :: post) := by
    have : str "<" = [60] := by decide
    have : str ">" = [62] := by decide
    simp [*]
  have e2 : pre ++ str "<string:" ++ name ++ str ">" ++ post =
      pre ++ 60 :: ((str "string" ++ 58 :: name) ++ 62 :: post) := by
    have : str "<string:" = 60 :: (str "string" ++ [58]) := by decide
    have : str ">" = [62] := by decide
    simp [*]
  have hs58 : (58 : UInt8) ∉ str "string" := by decide
  have hs47 : (47 : UInt8) ∉ str "string" := by decide
  refine ⟨_, ?_, ?_, rfl⟩
  · rw [e1]
    apply parseTrie_one_placeholder pre name post D name hpre.1 hne h47 hpost.1 hpost.2
    simp [strings_Split_of_not_mem 58 name h58]
  · rw [e2]
    apply parseTrie_one_placeholder pre _ post D name hpre.1 (by simp) _ hpost.1 hpost.2
    · rw [strings_Split_append_sep 58 name _ hs58, strings_Split_of_not_mem 58 name h58]
      simp
    · simp only [List.mem_append, List.mem_cons, not_or]
      exact ⟨hs47, by decide, h47⟩

/-- Witness of C17 at `/users/<id>/x` and `/users/<string:id>/x`. -/
theorem C17_placeholder_sugar_witness :
    str "id" ≠ [] ∧ (47 : UInt8) ∉ str "id" ∧ (58 : UInt8) ∉ str "id" ∧
    (60 : UInt8) ∉ str "id" ∧ (62 : UInt8) ∉ str "id" ∧
    ((60 : UInt8) ∉ str "/users/" ∧ (62 : UInt8) ∉ str "/users/") ∧
    ((60 : UInt8) ∉ str "/x" ∧ (62 : UInt8) ∉ str "/x") ∧
    ∃ t : trie Nat,
      parseTrie (str "/users/" ++ str "<" ++ str "id" ++ str ">" ++ str "/x") (some 3) = .ok t ∧
      parseTrie (str "/users/" ++ str "<string:" ++ str "id" ++ str ">" ++ str "/x") (some 3)
        = .ok t ∧
      t = ⟨some (keyChain (some 3) 0 none ((str "/users/").map (fun c => (c, none)) ++
        (0, some (.stringMatcher (str "id"))) :: (str "/x").map (fun c => (c, none))))⟩ :=
  ⟨by decide, by decide, by decide, by decide, by decide, by decide, by decide,
    C17_placeholder_sugar (str "/users/") (str "id") (str "/x") (some 3) (by decide) (by decide)
      (by decide) (by decide) (by decide) (by decide) (by decide)⟩

/-- C18: for every non-empty literal pattern `P`, `parseTrie(P, D)` yields a root
without payload and below it a single chain of exactly `len(P)` nodes: the
node at depth `k + 1` is the literal node for the byte `P[k]`, it has exactly
one child unless it is the last one, which has none, and only the last node
carries a payload, which is `D`. -/
theorem C18_literal_pattern_chain {N : Type} (P : List UInt8) (D : N) (hne : P ≠ [])
    (hp : noPlaceholder P) :
    ∃ root : trieNode N, parseTrie P (some D) = .ok ⟨some root⟩ ∧
      root.char = 0 ∧ root.matcher = none ∧ root.result = none ∧
      (∃ c, root.children = [c]) ∧
      ∀ (k : Nat) (hk : k < P.length), ∃ node, descend root (k + 1) = some node ∧
        node.char = P[k] ∧ node.matcher = none ∧
        (k + 1 < P.length → node.result = none ∧ ∃ c, node.children = [c]) ∧
        (k + 1 = P.length → node.result = some D ∧ node.children = []) := by
  refine ⟨_, parseTrie_literal P (some D) hne hp, litChain_char _ _ _ _,
    litChain_matcher _ _ _ _, ?_, ?_, ?_⟩
  · simp [litChain_result, hne]
  · cases P with
    | nil => exact absurd rfl hne
    | cons c cs => exact ⟨_, rfl⟩
  · intro k hk
    refine ⟨_, descend_litChain (some D) P 0 none k hk, litChain_char _ _ _ _,
      litChain_matcher _ _ _ _, ?_, ?_⟩
    · intro hlt
      have hd : P.drop (k + 1) ≠ [] := by
        intro h0
        have := congrArg List.length h0
        simp at this
        omega
      refine ⟨by simp [litChain_result, hd], ?_⟩
      obtain ⟨c, cs, hcs⟩ := List.exists_cons_of_ne_nil hd
      rw [hcs]
      exact ⟨_, rfl⟩
    · intro heq
      have hd : P.drop (k + 1) = [] := by
        apply List.drop_eq_nil_of_le
        omega
      rw [hd]
      exact ⟨rfl, rfl⟩

/-- Witness of C18 at the pattern `/ab`. -/
theorem C18_literal_pattern_chain_witness :
    str "/ab" ≠ [] ∧ noPlaceholder (str "/ab") ∧
    ∃ root : trieNode Nat, parseTrie (str "/ab") (some 4) = .ok ⟨some root⟩ ∧
      root.char = 0 ∧ root.matcher = none ∧ root.result = none ∧
      (∃ c, root.children = [c]) ∧
      ∀ (k : Nat) (hk : k < (str "/ab").length), ∃ node, descend root (k + 1) = some node ∧
        node.char = (str "/ab")[k] ∧ node.matcher = none ∧
        (k + 1 < (str "/ab").length → node.result = none ∧ ∃ c, node.children = [c]) ∧
        (k + 1 = (str "/ab").length → node.result = some 4 ∧ node.children = []) :=
  ⟨by decide, by decide, C18_literal_pattern_chain (str "/ab") 4 (by decide) (by decide)⟩

/-- C19: for every trie, matching the empty path gives exactly the result of
matching the path `/`. -/
theorem C19_empty_path_is_slash {N L : Type} (rm : N → Option L) (t : trie N) :
    t.match_ rm [] = t.match_ rm (str "/") := by
  unfold trie.match_
  cases t.root with
  | none => rfl
  | some root => rfl

/-- C20 (the code at the failing input): `parseTrie("<a><b>", D)` yields the root
with one child, a single string matcher named `a><b` that carries `D`; and
`parseTrie("<a>-<b>", D)` yields a single string matcher named `a>-<b`.  The
class `[^/]+` of `reParam` is greedy and admits `>`, so the placeholder ends at
the last `>` of the path segment, not at its own closing `>`. -/
theorem C20_placeholder_runs_to_last_close {N : Type} (D : N) :
    parseTrie (str "<a><b>") (some D) =
        .ok ⟨some (.mk 0 [.mk 0 [] (some (.stringMatcher (str "a><b"))) (some D)] none none)⟩ ∧
      parseTrie (str "<a>-<b>") (some D) =
        .ok ⟨some (.mk 0 [.mk 0 [] (some (.stringMatcher (str "a>-<b"))) (some D)] none none)⟩ :=
  ⟨rfl, rfl⟩

end exproute
